import Mathlib

/-!
# Verification of the spin / withdrawal / conversion core

Shallow embedding of the backend's core subsystems and proofs about them:

* the spin mini-game (`backend/src/routes/spin.js`): the outcome
  distribution generator (`getPresetOptionsServer`, `genOutcomeWeights`),
  the weighted draw (`weightedPick`) and the `POST /spin` handler;
* the withdrawal accounting engine (`backend/src/routes/account.js`
  `GET /withdraw/summary`, `POST /withdraw`, DELETE, and
  `backend/src/routes/admin.js` `POST /withdrawals/:id/verify`);
* the point/currency converter (`POST /convert`, `POST /convert-back`).

JavaScript numbers are modelled as exact rationals; `Math.round`,
`toFixed(3)` and `toFixed(6)` are modelled as explicit rounding functions
on `ℚ`.  Timestamps are integers (milliseconds).  Database state is
explicit: a single user's balances together with the lists of spin and
withdrawal records owned by that user.
-/

namespace LPCore

/-! ## JavaScript numeric helpers -/

/-- `Math.round q`: round half toward positive infinity. -/
def jsRound (q : ℚ) : ℤ := ⌊q + 1/2⌋

/-- `Number(q.toFixed 3)`: round to 3 decimal places (half up). -/
def round3 (q : ℚ) : ℚ := (⌊q * 1000 + 1/2⌋ : ℚ) / 1000

/-- `Number(q.toFixed 6)`: round to 6 decimal places (half up). -/
def round6 (q : ℚ) : ℚ := (⌊q * 1000000 + 1/2⌋ : ℚ) / 1000000

/-- JavaScript `x || d` on numbers: `d` when `x` is `0`, else `x`. -/
def jsOr (q d : ℚ) : ℚ := if q = 0 then d else q

/-! ## `Array.from(new Set(l)).sort((a,b) => a-b)`

The spin tier lists are deduplicated and sorted ascending.  We model the
combination as insertion into a strictly ascending list. -/

/-- Insert `x` into a strictly ascending list, keeping it strictly
ascending (duplicates dropped). -/
def insertAsc (x : ℤ) : List ℤ → List ℤ
  | [] => [x]
  | y :: ys =>
    if x < y then x :: y :: ys
    else if x = y then y :: ys
    else y :: insertAsc x ys

/-- Model of `Array.from(new Set(l)).sort((a,b) => a-b)`: the set of
elements of `l`, listed in ascending order. -/
def sortedDedup (l : List ℤ) : List ℤ := l.foldr insertAsc []

theorem mem_insertAsc (a x : ℤ) (l : List ℤ) :
    a ∈ insertAsc x l ↔ a = x ∨ a ∈ l := by
  induction l with
  | nil => simp [insertAsc]
  | cons y ys ih =>
    simp only [insertAsc]
    split_ifs with h1 h2
    · simp [List.mem_cons]
    · subst h2
      simp only [List.mem_cons]
      tauto
    · simp only [List.mem_cons, ih]
      tauto

theorem sortedDedup_mem (a : ℤ) (l : List ℤ) :
    a ∈ sortedDedup l ↔ a ∈ l := by
  induction l with
  | nil => simp [sortedDedup]
  | cons y ys ih =>
    simp only [sortedDedup, List.foldr_cons, mem_insertAsc, List.mem_cons]
    rw [show ys.foldr insertAsc [] = sortedDedup ys from rfl] at *
    rw [ih]

theorem sortedDedup_ne_nil (x : ℤ) (l : List ℤ) (hx : x ∈ l) :
    sortedDedup l ≠ [] := by
  intro h
  have := (sortedDedup_mem x l).2 hx
  rw [h] at this
  exact absurd this (List.not_mem_nil x)

/-! ## Outcome distribution generator (`routes/spin.js`) -/

/-- `const MIN_BET = 10` -/
def MIN_BET : ℤ := 10

/-- `const MAX_BET_SERVER = 100` -/
def MAX_BET_SERVER : ℤ := 100

/-- `const DAILY_LIMIT = 5` -/
def DAILY_LIMIT : ℕ := 5

/-- `const TOP_PRIZE_BASE_PROB = 0.001` -/
def TOP_PRIZE_BASE_PROB : ℚ := 1/1000

/-- Branch body of `getPresetOptionsServer` after the input has been
clamped to a positive integer `bet`. -/
def presetCore (bet : ℤ) : List ℤ :=
  if 9 ≤ bet ∧ bet ≤ 11 then [0, 3, 5, 7, 8, 10, 15, 20, 50, 80, 100]
  else if 18 ≤ bet ∧ bet ≤ 22 then [0, 5, 10, 14, 17, 20, 40, 80, 100, 150, 200]
  else if 28 ≤ bet ∧ bet ≤ 32 then [0, 5, 10, 15, 20, 25, 30, 40, 60, 100, 150, 300]
  else if 65 ≤ bet ∧ bet ≤ 75 then [10, 15, 30, 40, 55, 70, 80, 120, 200, 250, 700]
  else if bet < 50 then
    sortedDedup
      ([0, 3, 5, max 5 (jsRound ((bet : ℚ) * (6/10))), jsRound ((bet : ℚ) * (85/100))] ++
       [jsRound ((bet : ℚ) * (5/10)), jsRound ((bet : ℚ) * (75/100)), bet] ++
       [jsRound ((bet : ℚ) * 2), jsRound ((bet : ℚ) * 4), jsRound ((bet : ℚ) * 8)])
  else
    sortedDedup
      ([0, 5] ++
       [jsRound ((bet : ℚ) * (2/10)), jsRound ((bet : ℚ) * (5/10)), jsRound ((bet : ℚ) * (8/10))] ++
       [jsRound ((bet : ℚ) * 1), jsRound ((bet : ℚ) * (15/10)), jsRound ((bet : ℚ) * 2)] ++
       [jsRound ((bet : ℚ) * 3), jsRound ((bet : ℚ) * 5), jsRound ((bet : ℚ) * (75/10))])

/-- `getPresetOptionsServer(bet)`: `bet = Math.max(1, Math.round(Number(bet) || 0))`
followed by banded presets for common wager sizes and a formulaic
fallback, deduplicated and sorted ascending. -/
def getPresetOptionsServer (betIn : ℚ) : List ℤ :=
  presetCore (max 1 (jsRound betIn))

theorem presetCore_ne_nil (b : ℤ) : presetCore b ≠ [] := by
  unfold presetCore
  split_ifs <;>
    first
      | exact sortedDedup_ne_nil 0 _ (by simp)
      | simp

theorem getPresetOptionsServer_ne_nil (q : ℚ) : getPresetOptionsServer q ≠ [] :=
  presetCore_ne_nil _

/-! ## `genOutcomeWeights` (`routes/spin.js`)

The `percents` object is modelled as a total function `ℤ → ℚ` that is `0`
outside the keys of the object (JavaScript reads of absent keys go through
`|| 0` / `|| 0.01` guards, modelled by `jsOr`). -/

/-- Point update of a percents map (`percents[k] = x`). -/
def upd (p : ℤ → ℚ) (k : ℤ) (x : ℚ) : ℤ → ℚ := fun v => if v = k then x else p v

/-- `if (all.includes(k)) percents[k] = x` -/
def updIfMem (p : ℤ → ℚ) (k : ℤ) (x : ℚ) (all : List ℤ) : ℤ → ℚ :=
  if k ∈ all then upd p k x else p

/-- The hand-tuned template for bets near 10, keys in ascending order
(JavaScript iterates numeric object keys ascending). -/
def template10 : List (ℤ × ℚ) :=
  [(0, 1026/100), (3, 1026/100), (5, 1026/100), (7, 2053/100), (8, 2566/100),
   (10, 1540/100), (15, 318/100), (20, 212/100), (50, 169/100), (80, 51/100), (100, 10/100)]

/-- The hand-tuned template for bets near 20. -/
def template20 : List (ℤ × ℚ) :=
  [(0, 20), (5, 60), (20, 10), (30, 32/10), (40, 3), (60, 28/10),
   (100, 15/10), (150, 7/10), (180, 4/10), (200, 1/10)]

/-- Apply a canonical template: copy the entries whose key is a tier,
then rescale exactly those entries when their sum is off 100 by more
than `0.0001`. -/
def applyTemplate (raw : List (ℤ × ℚ)) (all : List ℤ) (p : ℤ → ℚ) : ℤ → ℚ :=
  let p1 := raw.foldl (fun acc kv => if kv.1 ∈ all then upd acc kv.1 kv.2 else acc) p
  let presentRaw := raw.filter (fun kv => kv.1 ∈ all)
  let usedSum := (presentRaw.map Prod.snd).sum
  let present := presentRaw.map Prod.fst
  if 0 < usedSum ∧ 1/10000 < |usedSum - 100| then
    fun v => if v ∈ present then p1 v * (100 / usedSum) else p1 v
  else p1

/-- The generic (non-template) branch: fixed percentages for the two
lowest tiers, a small base for the jackpot tier, and the remainder split
over the mid tiers proportionally to a score.

In the source the score of a mid tier `v` is the real number
`(1 / (1 + Math.log10(1 + dist))) * boost` with `dist = max 1 |v - bet|`
and `boost = 1.25` when `v ≥ bet` (else `1`).  `log10` is transcendental,
so the score is abstracted as a parameter `sc v bet`; every theorem below
holds for an arbitrary score function, in particular for the source's. -/
def genericPercents (sc : ℤ → ℤ → ℚ) (b : ℤ) (all : List ℤ) (topPrize : ℤ)
    (p0 : ℤ → ℚ) : ℤ → ℚ :=
  let pA :=
    if b ≤ 10 then updIfMem (updIfMem p0 0 20 all) 5 60 all
    else if b ≤ 20 then updIfMem (updIfMem p0 0 3 all) 5 6 all
    else if b < 50 then updIfMem (updIfMem p0 0 1 all) 5 1 all
    else updIfMem (updIfMem p0 0 (1/2) all) 5 (1/2) all
  let pB := updIfMem pA topPrize (max (1/100) (TOP_PRIZE_BASE_PROB * 100)) all
  let rest := all.filter (fun v => v ≠ 0 ∧ v ≠ 5 ∧ v ≠ topPrize)
  if rest.length ≠ 0 then
    let totalScore := jsOr ((rest.map (fun v => sc v b)).sum) 1
    let used := pB 0 + pB 5 + pB topPrize
    let remaining := max (1/10000) (100 - used)
    rest.foldl (fun acc v => upd acc v (max (1/100) (sc v b / totalScore * remaining))) pB
  else pB

/-- The `// caps and normalize` adjustments: cap the two lowest tiers at
1% for bets above 10, and jointly cap all tiers below 20 at 1% for bets
of 50 and above. -/
def capsAdjust (b : ℤ) (all : List ℤ) (p : ℤ → ℚ) : ℤ → ℚ :=
  let pD :=
    if 10 < b then
      let t := if 0 ∈ all then upd p 0 (min (jsOr (p 0) (1/100)) 1) else p
      if 5 ∈ all then upd t 5 (min (jsOr (t 5) (1/100)) 1) else t
    else p
  if 50 ≤ b then
    let smalls := all.filter (fun v => v < 20)
    if smalls.length ≠ 0 then
      let totalSmalls := (smalls.map pD).sum
      if 1 < totalSmalls then
        fun v => if v ∈ smalls then pD v * (1 / totalSmalls) else pD v
      else pD
    else pD
  else pD

/-- Result of `genOutcomeWeights`: `{ options, percents, weights }`. -/
structure OutcomeDist where
  options : List ℤ
  percents : ℤ → ℚ
  weights : List ℚ

/-- The final steps of `genOutcomeWeights`: floor every tier's percent at
`0.01`, renormalize the set to sum to 100, and derive draw weights
(`Math.max(0.0001, percent * 10)`). -/
def finalize (all : List ℤ) (p : ℤ → ℚ) : OutcomeDist :=
  let pF := fun v => if v ∈ all then (if p v < 1/100 then 1/100 else p v) else p v
  let s := jsOr ((all.map pF).sum) 1
  let pG := fun v => if v ∈ all then pF v * (100 / s) else pF v
  ⟨all, pG, all.map (fun v => max (1/10000) (pG v * 10))⟩

/-- Everything `genOutcomeWeights` does before its final floor/renormalize. -/
def genPercentsPre (sc : ℤ → ℤ → ℚ) (b : ℤ) (all : List ℤ) : ℤ → ℚ :=
  let topPrize := all.getLastD 0
  let p0 : ℤ → ℚ := fun v => if v ∈ all then 1/100 else 0
  let afterBranch :=
    if |b - 10| ≤ 1 then applyTemplate template10 all p0
    else if |b - 20| ≤ 2 then applyTemplate template20 all p0
    else genericPercents sc b all topPrize p0
  capsAdjust b all afterBranch

/-- `genOutcomeWeights(bet)`: clamp the wager, derive the tier set, build
the percentage map (template or generic branch), apply caps, floor,
renormalize and convert to draw weights. -/
def genOutcomeWeights (sc : ℤ → ℤ → ℚ) (betIn : ℚ) : OutcomeDist :=
  let b : ℤ := max 1 (jsRound betIn)
  let all := getPresetOptionsServer (b : ℚ)
  finalize all (genPercentsPre sc b all)

theorem genOutcomeWeights_eq (sc : ℤ → ℤ → ℚ) (betIn : ℚ) :
    genOutcomeWeights sc betIn =
      finalize (getPresetOptionsServer ((max 1 (jsRound betIn) : ℤ) : ℚ))
        (genPercentsPre sc (max 1 (jsRound betIn))
          (getPresetOptionsServer ((max 1 (jsRound betIn) : ℤ) : ℚ))) := rfl

theorem finalize_options (all : List ℤ) (p : ℤ → ℚ) :
    (finalize all p).options = all := rfl

/-- After flooring, every tier's percent is at least `0.01`. -/
theorem finalize_floor_ge (all : List ℤ) (p : ℤ → ℚ) (v : ℤ) (hv : v ∈ all) :
    (1/100 : ℚ) ≤ (if v ∈ all then (if p v < 1/100 then 1/100 else p v) else p v) := by
  rw [if_pos hv]
  split_ifs with h
  · exact le_refl _
  · exact le_of_not_lt h

/-- The renormalized percentages sum to exactly 100 over `options`, for
every input percentage map. -/
theorem finalize_percents_sum (all : List ℤ) (p : ℤ → ℚ) (h : all ≠ []) :
    ((finalize all p).options.map (finalize all p).percents).sum = 100 := by
  classical
  have hl : (all.map fun v => if v ∈ all then (if p v < 1/100 then 1/100 else p v) else p v) ≠ [] := by
    simpa using h
  have hpos : ∀ x ∈ (all.map fun v => if v ∈ all then (if p v < 1/100 then 1/100 else p v) else p v),
      (0 : ℚ) < x := by
    intro x hx
    obtain ⟨v, hv, rfl⟩ := List.mem_map.1 hx
    calc (0 : ℚ) < 1/100 := by norm_num
    _ ≤ _ := finalize_floor_ge all p v hv
  have hspos : (0 : ℚ) <
      (all.map fun v => if v ∈ all then (if p v < 1/100 then 1/100 else p v) else p v).sum :=
    List.sum_pos _ hpos hl
  show (all.map fun v => if v ∈ all then _ else _).sum = 100
  simp only [finalize]
  rw [List.map_congr_left (g := fun v =>
    (if v ∈ all then (if p v < 1/100 then 1/100 else p v) else p v) *
      (100 / jsOr (all.map fun v =>
        if v ∈ all then (if p v < 1/100 then 1/100 else p v) else p v).sum 1))]
  · rw [List.sum_map_mul_right]
    rw [jsOr, if_neg (ne_of_gt hspos)]
    field_simp
  · intro v hv
    simp only [if_pos hv]

/-- Every draw weight is strictly positive. -/
theorem finalize_weights_pos (all : List ℤ) (p : ℤ → ℚ) :
    ∀ w ∈ (finalize all p).weights, 0 < w := by
  intro w hw
  simp only [finalize] at hw
  obtain ⟨v, _, rfl⟩ := List.mem_map.1 hw
  calc (0 : ℚ) < 1/10000 := by norm_num
  _ ≤ _ := le_max_left _ _

/-- C2: for every bet `b` with `MIN_BET ≤ b ≤ MAX_BET` (10 ≤ b ≤ 100),
the percentage map returned by the outcome-distribution generator sums to
100 (exactly, hence within any epsilon), and every tier's draw weight is
strictly positive — for an arbitrary mid-tier score function, hence in
particular for the source's inverse-log-distance score. -/
theorem c2_percents_sum_100_and_weights_pos (sc : ℤ → ℤ → ℚ) (b : ℤ)
    (_h1 : MIN_BET ≤ b) (_h2 : b ≤ MAX_BET_SERVER) :
    (((genOutcomeWeights sc (b : ℚ)).options.map
        (genOutcomeWeights sc (b : ℚ)).percents).sum = 100)
    ∧ ∀ w ∈ (genOutcomeWeights sc (b : ℚ)).weights, 0 < w := by
  rw [genOutcomeWeights_eq]
  exact ⟨finalize_percents_sum _ _ (getPresetOptionsServer_ne_nil _),
         finalize_weights_pos _ _⟩

/-- Witness for C2 at the concrete bet 15 and constant score 1. -/
theorem c2_percents_sum_100_and_weights_pos_witness :
    MIN_BET ≤ (15 : ℤ) ∧ (15 : ℤ) ≤ MAX_BET_SERVER ∧
    ((((genOutcomeWeights (fun _ _ => 1) ((15 : ℤ) : ℚ)).options.map
        (genOutcomeWeights (fun _ _ => 1) ((15 : ℤ) : ℚ)).percents).sum = 100)
      ∧ ∀ w ∈ (genOutcomeWeights (fun _ _ => 1) ((15 : ℤ) : ℚ)).weights, 0 < w) :=
  ⟨by decide, by decide,
   c2_percents_sum_100_and_weights_pos (fun _ _ => 1) 15 (by decide) (by decide)⟩

/-- `Math.round` of an integer is itself. -/
theorem jsRound_intCast (b : ℤ) : jsRound (b : ℚ) = b := by
  unfold jsRound
  rw [add_comm, Int.floor_add_int]
  norm_num

/-- Inserting into a strictly-ascending list keeps it strictly ascending. -/
theorem pairwise_insertAsc (x : ℤ) (l : List ℤ)
    (h : List.Pairwise (· < ·) l) : List.Pairwise (· < ·) (insertAsc x l) := by
  induction l with
  | nil => simp [insertAsc]
  | cons y ys ih =>
    rcases List.pairwise_cons.1 h with ⟨hy, hys⟩
    simp only [insertAsc]
    split_ifs with h1 h2
    · refine List.pairwise_cons.2 ⟨?_, h⟩
      intro z hz
      rcases List.mem_cons.1 hz with rfl | hz
      · exact h1
      · exact h1.trans (hy z hz)
    · exact h
    · refine List.pairwise_cons.2 ⟨?_, ih hys⟩
      intro z hz
      rcases (mem_insertAsc z x ys).1 hz with rfl | hz
      · omega
      · exact hy z hz

/-- `sortedDedup` always produces a strictly-ascending list. -/
theorem pairwise_sortedDedup (l : List ℤ) :
    List.Pairwise (· < ·) (sortedDedup l) := by
  induction l with
  | nil => simp [sortedDedup]
  | cons y ys ih => exact pairwise_insertAsc y (sortedDedup ys) ih

/-- A nonempty strictly-ascending list has a unique maximum element. -/
theorem exists_unique_max_of_pairwise (l : List ℤ) (hne : l ≠ [])
    (h : List.Pairwise (· < ·) l) :
    ∃ m ∈ l, (∀ v ∈ l, v ≤ m) ∧ (∀ v ∈ l, v ≠ m → v < m) := by
  induction l with
  | nil => exact absurd rfl hne
  | cons x xs ih =>
    rcases List.pairwise_cons.1 h with ⟨hx, hxs⟩
    rcases xs with _ | ⟨y, ys⟩
    · exact ⟨x, by simp, by simp, by simp⟩
    · obtain ⟨m, hm, hub, huniq⟩ := ih (by simp) hxs
      have hxm : x < m := hx m hm
      refine ⟨m, List.mem_cons_of_mem x hm, ?_, ?_⟩
      · intro v hv
        rcases List.mem_cons.1 hv with rfl | hv
        · exact le_of_lt hxm
        · exact hub v hv
      · intro v hv hvm
        rcases List.mem_cons.1 hv with rfl | hv
        · exact hxm
        · exact huniq v hv hvm

set_option maxHeartbeats 3000000 in
/-- C3: for every bet `b` in `[MIN_BET, MAX_BET]`, the tier set is
strictly ascending (hence duplicate-free and sorted), contains a value
`≥ b`, and has a unique maximum element that is `≥` every other tier. -/
theorem c3_tier_set_sorted_and_jackpot (b : ℤ)
    (h1 : MIN_BET ≤ b) (h2 : b ≤ MAX_BET_SERVER) :
    List.Chain' (· < ·) (getPresetOptionsServer (b : ℚ))
    ∧ (∃ v ∈ getPresetOptionsServer (b : ℚ), b ≤ v)
    ∧ (∃ m ∈ getPresetOptionsServer (b : ℚ),
        (∀ v ∈ getPresetOptionsServer (b : ℚ), v ≤ m) ∧
        (∀ v ∈ getPresetOptionsServer (b : ℚ), v ≠ m → v < m)) := by
  simp only [MIN_BET] at h1
  simp only [MAX_BET_SERVER] at h2
  have hclamp : getPresetOptionsServer (b : ℚ) = presetCore b := by
    unfold getPresetOptionsServer
    rw [jsRound_intCast, max_eq_right (by omega)]
  rw [hclamp]
  rw [List.chain'_iff_pairwise]
  unfold presetCore
  split_ifs with hA hB hC hD hE
  · exact ⟨by norm_num [List.pairwise_cons], ⟨100, by norm_num, by omega⟩,
      exists_unique_max_of_pairwise _ (by simp) (by norm_num [List.pairwise_cons])⟩
  · exact ⟨by norm_num [List.pairwise_cons], ⟨200, by norm_num, by omega⟩,
      exists_unique_max_of_pairwise _ (by simp) (by norm_num [List.pairwise_cons])⟩
  · exact ⟨by norm_num [List.pairwise_cons], ⟨300, by norm_num, by omega⟩,
      exists_unique_max_of_pairwise _ (by simp) (by norm_num [List.pairwise_cons])⟩
  · exact ⟨by norm_num [List.pairwise_cons], ⟨700, by norm_num, by omega⟩,
      exists_unique_max_of_pairwise _ (by simp) (by norm_num [List.pairwise_cons])⟩
  · have hbmem : b ∈ sortedDedup
        ([0, 3, 5, max 5 (jsRound ((b : ℚ) * (6/10))), jsRound ((b : ℚ) * (85/100))] ++
         [jsRound ((b : ℚ) * (5/10)), jsRound ((b : ℚ) * (75/100)), b] ++
         [jsRound ((b : ℚ) * 2), jsRound ((b : ℚ) * 4), jsRound ((b : ℚ) * 8)]) := by
      rw [sortedDedup_mem]
      simp
    exact ⟨pairwise_sortedDedup _, ⟨b, hbmem, le_refl b⟩,
      exists_unique_max_of_pairwise _
        (by intro hnil ; rw [hnil] at hbmem ; exact List.not_mem_nil b hbmem)
        (pairwise_sortedDedup _)⟩
  · have hbmem : b ∈ sortedDedup
        ([0, 5] ++
         [jsRound ((b : ℚ) * (2/10)), jsRound ((b : ℚ) * (5/10)), jsRound ((b : ℚ) * (8/10))] ++
         [jsRound ((b : ℚ) * 1), jsRound ((b : ℚ) * (15/10)), jsRound ((b : ℚ) * 2)] ++
         [jsRound ((b : ℚ) * 3), jsRound ((b : ℚ) * 5), jsRound ((b : ℚ) * (75/10))]) := by
      rw [sortedDedup_mem]
      have : jsRound ((b : ℚ) * 1) = b := by rw [mul_one, jsRound_intCast]
      simp only [List.mem_append, List.mem_cons]
      tauto
    exact ⟨pairwise_sortedDedup _, ⟨b, hbmem, le_refl b⟩,
      exists_unique_max_of_pairwise _
        (by intro hnil ; rw [hnil] at hbmem ; exact List.not_mem_nil b hbmem)
        (pairwise_sortedDedup _)⟩

/-- Witness for C3 at the concrete bet 10. -/
theorem c3_tier_set_sorted_and_jackpot_witness :
    MIN_BET ≤ (10 : ℤ) ∧ (10 : ℤ) ≤ MAX_BET_SERVER ∧
    (List.Chain' (· < ·) (getPresetOptionsServer ((10 : ℤ) : ℚ))
      ∧ (∃ v ∈ getPresetOptionsServer ((10 : ℤ) : ℚ), (10 : ℤ) ≤ v)
      ∧ (∃ m ∈ getPresetOptionsServer ((10 : ℤ) : ℚ),
          (∀ v ∈ getPresetOptionsServer ((10 : ℤ) : ℚ), v ≤ m) ∧
          (∀ v ∈ getPresetOptionsServer ((10 : ℤ) : ℚ), v ≠ m → v < m))) :=
  ⟨by decide, by decide, c3_tier_set_sorted_and_jackpot 10 (by decide) (by decide)⟩

/-! ## Weighted draw (`weightedPick` in `routes/spin.js`) -/

/-- The scanning loop of `weightedPick`: subtract each (clamped) weight
from the draw point, returning the first item whose cumulative weight
reaches it; the last item is the fallback (`return items[n - 1]`). -/
def pickScan : List (ℤ × ℚ) → ℚ → Option ℤ
  | [], _ => none
  | [(x, _)], _ => some x
  | (x, w) :: kv :: rest, r =>
    if r - w ≤ 0 then some x else pickScan (kv :: rest) (r - w)

/-- `weightedPick(items, weights)`; the parameter `r ∈ [0,1)` stands for
the `Math.random()` call. -/
def weightedPick (items : List ℤ) (weights : List ℚ) (r : ℚ) : Option ℤ :=
  if items.length = 0 then none
  else
    let n := min items.length weights.length
    let ws := (weights.take n).map (fun w => max 0 w)
    let s := ws.sum
    if s ≤ 0 then items.get? (⌊r * n⌋).toNat
    else pickScan ((items.take n).zip ws) (r * s)

/-! ## Spin transaction coordinator (`POST /spin` in `routes/spin.js`) -/

/-- One day in milliseconds. -/
def MS_DAY : ℤ := 86400000

/-- `startOfDay`: UTC midnight of the given millisecond timestamp
(`setUTCHours(0,0,0,0)`). -/
def startOfDay (t : ℤ) : ℤ := t - t % MS_DAY

/-- One record of the `Spin` collection: wager, `won`, `outcome` and
creation timestamp.  The handler stores the drawn outcome in both `won`
and `outcome`. -/
structure SpinRec where
  bet : ℤ
  won : ℤ
  outcome : ℤ
  createdAt : ℤ
deriving DecidableEq

/-- The `SpinControl` singleton (kill switch).  The `reason` text plays
no role in the claims and is omitted. -/
structure SpinCtl where
  disabled : Bool
deriving DecidableEq

/-- The state the spin route reads and writes: the kill switch, the
requesting user's `pointsCurrent`, and the user's spin records. -/
structure SpinState where
  ctrl : SpinCtl
  pointsCurrent : ℚ
  spins : List SpinRec
deriving DecidableEq

/-- The error outcomes of `POST /spin` (403 disabled, 400 invalid bet,
429 quota, 400 insufficient points). -/
inductive SpinErr where
  | spinsDisabled
  | invalidBet
  | quotaExceeded
  | insufficientPoints
deriving DecidableEq

/-- The success payload of `POST /spin` (the `percents` object is
serialized as the list of percentages in tier order). -/
structure SpinResp where
  bet : ℤ
  outcome : ℤ
  delta : ℤ
  newPoints : ℚ
  options : List ℤ
  weights : List ℚ
  percents : List ℚ
deriving DecidableEq

/-- `Spin.countDocuments({userId, createdAt: {$gte: startOfDay()}})`. -/
def spinsToday (spins : List SpinRec) (now : ℤ) : ℕ :=
  (spins.filter (fun s => startOfDay now ≤ s.createdAt)).length

/-- The `POST /spin` handler.  Checks run in source order (kill switch,
wager validation on `Math.floor(Number(bet || 0))`, daily quota, balance),
each early return leaving the state unchanged; on success the balance is
incremented by `outcome - bet` and one spin record is appended.  `r` is
the `Math.random()` draw and `sc` the mid-tier score function of
`genOutcomeWeights`. -/
def spinHandler (sc : ℤ → ℤ → ℚ) (st : SpinState) (now : ℤ) (betRaw : ℚ) (r : ℚ) :
    SpinState × Except SpinErr SpinResp :=
  if st.ctrl.disabled then (st, .error .spinsDisabled)
  else
    let bet : ℤ := ⌊betRaw⌋
    if bet < MIN_BET then (st, .error .invalidBet)
    else if MAX_BET_SERVER < bet then (st, .error .invalidBet)
    else if DAILY_LIMIT ≤ spinsToday st.spins now then (st, .error .quotaExceeded)
    else if st.pointsCurrent < (bet : ℚ) then (st, .error .insufficientPoints)
    else
      let d := genOutcomeWeights sc (bet : ℚ)
      let outcome := (weightedPick d.options d.weights r).getD 0
      let delta := outcome - bet
      let newPoints := st.pointsCurrent + (delta : ℚ)
      ({ st with pointsCurrent := newPoints,
                 spins := st.spins ++ [⟨bet, outcome, outcome, now⟩] },
       .ok ⟨bet, outcome, delta, newPoints, d.options, d.weights,
            d.options.map d.percents⟩)

/-- C1: every successful spin (kill switch off, valid wager, quota not
reached, sufficient balance) returns `delta = outcome - bet`, applies
exactly `delta` to the point balance, and appends exactly one spin record
carrying the wager and the drawn outcome. -/
theorem c1_spin_success_audit (sc : ℤ → ℤ → ℚ) (st : SpinState) (now : ℤ) (r : ℚ) (b : ℤ)
    (hctl : st.ctrl.disabled = false)
    (hlo : MIN_BET ≤ b) (hhi : b ≤ MAX_BET_SERVER)
    (hq : spinsToday st.spins now < DAILY_LIMIT)
    (hbal : (b : ℚ) ≤ st.pointsCurrent) :
    ∃ st2 resp, spinHandler sc st now (b : ℚ) r = (st2, .ok resp) ∧
      resp.bet = b ∧
      resp.delta = resp.outcome - b ∧
      st2.pointsCurrent = st.pointsCurrent + (resp.delta : ℚ) ∧
      resp.newPoints = st2.pointsCurrent ∧
      st2.spins = st.spins ++ [⟨b, resp.outcome, resp.outcome, now⟩] := by
  unfold spinHandler
  simp only [hctl, Bool.false_eq_true, if_false, Int.floor_intCast]
  rw [if_neg (by omega), if_neg (by omega), if_neg (by omega),
    if_neg (not_lt.2 hbal)]
  exact ⟨_, _, rfl, rfl, rfl, rfl, rfl, rfl⟩

/-- Witness for C1: a fresh enabled user with 1000 points betting 10. -/
theorem c1_spin_success_audit_witness :
    (SpinState.mk ⟨false⟩ 1000 []).ctrl.disabled = false ∧
    MIN_BET ≤ (10 : ℤ) ∧ (10 : ℤ) ≤ MAX_BET_SERVER ∧
    spinsToday (SpinState.mk ⟨false⟩ 1000 []).spins 0 < DAILY_LIMIT ∧
    ((10 : ℤ) : ℚ) ≤ (SpinState.mk ⟨false⟩ 1000 []).pointsCurrent ∧
    (∃ st2 resp,
      spinHandler (fun _ _ => 1) (SpinState.mk ⟨false⟩ 1000 []) 0 ((10 : ℤ) : ℚ) 0 =
          (st2, .ok resp) ∧
        resp.bet = 10 ∧
        resp.delta = resp.outcome - 10 ∧
        st2.pointsCurrent = (SpinState.mk ⟨false⟩ 1000 []).pointsCurrent + (resp.delta : ℚ) ∧
        resp.newPoints = st2.pointsCurrent ∧
        st2.spins = (SpinState.mk ⟨false⟩ 1000 []).spins ++ [⟨10, resp.outcome, resp.outcome, 0⟩]) :=
  ⟨rfl, by decide, by decide, by decide, by norm_num,
   c1_spin_success_audit (fun _ _ => 1) (SpinState.mk ⟨false⟩ 1000 []) 0 0 10
     rfl (by decide) (by decide) (by decide) (by norm_num)⟩

/-- C7: once the user has `DAILY_LIMIT` (5) spin records in the current
UTC day, a further spin request changes neither the balance nor the spin
records (the handler returns the state unchanged with an error), and —
when it is not already rejected by the kill switch or wager validation —
the rejection is specifically the quota-exceeded condition. -/
theorem c7_daily_quota_rejection (sc : ℤ → ℤ → ℚ) (st : SpinState) (now : ℤ)
    (betRaw r : ℚ) (hq : DAILY_LIMIT ≤ spinsToday st.spins now) :
    (spinHandler sc st now betRaw r).1 = st ∧
    (∀ resp, (spinHandler sc st now betRaw r).2 ≠ .ok resp) ∧
    (st.ctrl.disabled = false → MIN_BET ≤ ⌊betRaw⌋ → ⌊betRaw⌋ ≤ MAX_BET_SERVER →
      (spinHandler sc st now betRaw r).2 = .error .quotaExceeded) := by
  simp only [spinHandler]
  split_ifs with h1 h2 h3
  · refine ⟨rfl, fun resp h => Except.noConfusion h, fun hc _ _ => ?_⟩
    rw [hc] at h1
    exact absurd h1 Bool.false_ne_true
  · exact ⟨rfl, fun resp h => Except.noConfusion h, fun _ hlo _ => absurd hlo (by omega)⟩
  · exact ⟨rfl, fun resp h => Except.noConfusion h, fun _ _ hhi => absurd hhi (by omega)⟩
  · exact ⟨rfl, fun resp h => Except.noConfusion h, fun _ _ _ => rfl⟩

/-- Witness for C7: a user with five same-day spin records. -/
theorem c7_daily_quota_rejection_witness :
    DAILY_LIMIT ≤ spinsToday (SpinState.mk ⟨false⟩ 1000
        (List.replicate 5 ⟨10, 0, 0, 0⟩)).spins 0 ∧
    ((spinHandler (fun _ _ => 1) (SpinState.mk ⟨false⟩ 1000
        (List.replicate 5 ⟨10, 0, 0, 0⟩)) 0 10 0).1 =
      SpinState.mk ⟨false⟩ 1000 (List.replicate 5 ⟨10, 0, 0, 0⟩) ∧
    (∀ resp, (spinHandler (fun _ _ => 1) (SpinState.mk ⟨false⟩ 1000
        (List.replicate 5 ⟨10, 0, 0, 0⟩)) 0 10 0).2 ≠ .ok resp) ∧
    ((SpinState.mk ⟨false⟩ 1000 (List.replicate 5 ⟨10, 0, 0, 0⟩)).ctrl.disabled = false →
      MIN_BET ≤ ⌊(10 : ℚ)⌋ → ⌊(10 : ℚ)⌋ ≤ MAX_BET_SERVER →
      (spinHandler (fun _ _ => 1) (SpinState.mk ⟨false⟩ 1000
        (List.replicate 5 ⟨10, 0, 0, 0⟩)) 0 10 0).2 = .error .quotaExceeded)) :=
  ⟨by decide,
   c7_daily_quota_rejection (fun _ _ => 1)
     (SpinState.mk ⟨false⟩ 1000 (List.replicate 5 ⟨10, 0, 0, 0⟩)) 0 10 0 (by decide)⟩

instance {ε α : Type} [DecidableEq ε] [DecidableEq α] : DecidableEq (Except ε α) :=
  fun a b =>
    match a, b with
    | .error x, .error y =>
      decidable_of_iff (x = y) ⟨fun h => by rw [h], fun h => by injection h⟩
    | .ok x, .ok y =>
      decidable_of_iff (x = y) ⟨fun h => by rw [h], fun h => by injection h⟩
    | .error _, .ok _ => isFalse (fun h => Except.noConfusion h)
    | .ok _, .error _ => isFalse (fun h => Except.noConfusion h)

/-- C8 counterexample: `10.5` is not an integer, so by the claim the
request should fail with the invalid-wager condition; the handler instead
floors the wager (`Math.floor(Number(req.body.bet || 0))`) to 10 and does
not reject it. -/
theorem c8_counterexample :
    (∀ z : ℤ, (21/2 : ℚ) ≠ (z : ℚ)) ∧
    (spinHandler (fun _ _ => 1) (SpinState.mk ⟨false⟩ 1000 []) 0 (21/2) 0).2 ≠
      Except.error SpinErr.invalidBet := by
  constructor
  · intro z h
    have h2 : (21 : ℚ) = (z : ℚ) * 2 := by
      field_simp at h
      linarith [h]
    have h3 : (21 : ℤ) = z * 2 := by exact_mod_cast h2
    omega
  · intro hEq
    have hfl : ⌊(21/2 : ℚ)⌋ = 10 := by norm_num
    norm_num [spinHandler, hfl, spinsToday, startOfDay,
      MIN_BET, MAX_BET_SERVER, DAILY_LIMIT] at hEq
    exact Except.noConfusion hEq

/-- C8 amended: the handler validates `Math.floor` of the submitted
wager: it fails with the invalid-wager condition exactly when the floored
wager lies outside `[MIN_BET, MAX_BET]`, and otherwise the wager used for
the outcome and the delta is that floored value (which equals the
submitted wager whenever the submission is an integer). -/
theorem c8_floored_wager_validation (sc : ℤ → ℤ → ℚ) (st : SpinState) (now : ℤ)
    (betRaw r : ℚ) (hctl : st.ctrl.disabled = false) :
    ((⌊betRaw⌋ < MIN_BET ∨ MAX_BET_SERVER < ⌊betRaw⌋) →
      spinHandler sc st now betRaw r = (st, .error .invalidBet)) ∧
    (MIN_BET ≤ ⌊betRaw⌋ → ⌊betRaw⌋ ≤ MAX_BET_SERVER →
      (spinHandler sc st now betRaw r).2 ≠ .error .invalidBet ∧
      ∀ st2 resp, spinHandler sc st now betRaw r = (st2, .ok resp) →
        resp.bet = ⌊betRaw⌋ ∧ resp.delta = resp.outcome - ⌊betRaw⌋) := by
  simp only [spinHandler, hctl, Bool.false_eq_true, if_false]
  split_ifs with h2 h3 h4 h5
  · exact ⟨fun _ => rfl, fun hlo _ => absurd h2 (by omega)⟩
  · exact ⟨fun _ => rfl, fun _ hhi => absurd h3 (by omega)⟩
  · refine ⟨fun hr => hr.elim (fun h => absurd h h2) (fun h => absurd h h3),
      fun _ _ => ⟨?_, ?_⟩⟩
    · intro hEq
      injection hEq with h'
      exact SpinErr.noConfusion h'
    · intro st2 resp h
      exact Except.noConfusion (congrArg Prod.snd h)
  · refine ⟨fun hr => hr.elim (fun h => absurd h h2) (fun h => absurd h h3),
      fun _ _ => ⟨?_, ?_⟩⟩
    · intro hEq
      injection hEq with h'
      exact SpinErr.noConfusion h'
    · intro st2 resp h
      exact Except.noConfusion (congrArg Prod.snd h)
  · refine ⟨fun hr => hr.elim (fun h => absurd h h2) (fun h => absurd h h3),
      fun _ _ => ⟨fun hEq => Except.noConfusion hEq, ?_⟩⟩
    intro st2 resp h
    have hs := congrArg Prod.snd h
    cases Except.ok.inj hs
    exact ⟨rfl, rfl⟩

/-- Witness for amended C8 at the non-integer wager `10.5`. -/
theorem c8_floored_wager_validation_witness :
    (SpinState.mk ⟨false⟩ 1000 []).ctrl.disabled = false ∧
    (((⌊(21/2 : ℚ)⌋ < MIN_BET ∨ MAX_BET_SERVER < ⌊(21/2 : ℚ)⌋) →
      spinHandler (fun _ _ => 1) (SpinState.mk ⟨false⟩ 1000 []) 0 (21/2) 0 =
        (SpinState.mk ⟨false⟩ 1000 [], .error .invalidBet)) ∧
    (MIN_BET ≤ ⌊(21/2 : ℚ)⌋ → ⌊(21/2 : ℚ)⌋ ≤ MAX_BET_SERVER →
      (spinHandler (fun _ _ => 1) (SpinState.mk ⟨false⟩ 1000 []) 0 (21/2) 0).2 ≠
        .error .invalidBet ∧
      ∀ st2 resp,
        spinHandler (fun _ _ => 1) (SpinState.mk ⟨false⟩ 1000 []) 0 (21/2) 0 =
          (st2, .ok resp) →
        resp.bet = ⌊(21/2 : ℚ)⌋ ∧ resp.delta = resp.outcome - ⌊(21/2 : ℚ)⌋)) :=
  ⟨rfl, c8_floored_wager_validation (fun _ _ => 1)
    (SpinState.mk ⟨false⟩ 1000 []) 0 (21/2) 0 rfl⟩

/-! ## Withdrawal accounting engine
(`routes/account.js`: summary / request / delete; `routes/admin.js`:
verify / reject)

A single user's view of the system: the user's balances and the list of
that user's withdrawal records.  Records are addressed by their position
in the list (standing in for Mongo ids). -/

/-- `const WITHDRAWAL_24H_CAP = 100.0` -/
def WITHDRAWAL_24H_CAP : ℚ := 100

/-- `const MIN_WITHDRAW_AMOUNT = 30.0` -/
def MIN_WITHDRAW_AMOUNT : ℚ := 30

/-- `const POINT_TO_USD = 0.003` -/
def POINT_TO_USD : ℚ := 3/1000

/-- `const MS_24H = 24 * 3600 * 1000` -/
def MS_24H : ℤ := 24 * 3600 * 1000

/-- Withdrawal status enum. -/
inductive WStatus where
  | pending
  | verified
  | rejected
deriving DecidableEq

/-- One `Withdrawal` document: amount (dollars), contact phone, status,
request timestamp, optional verification timestamp.  (`verifiedBy` and
`note` play no role in the claims.) -/
structure WRec where
  amount : ℚ
  phone : String
  status : WStatus
  requestedAt : ℤ
  verifiedAt : Option ℤ
deriving DecidableEq

/-- The state the withdrawal routes read and write: the owning user's
currency and point balances, the user's admin flag, and the user's
withdrawal records. -/
structure WState where
  balanceDollar : ℚ
  pointsCurrent : ℚ
  isAdmin : Bool
  ledger : List WRec
deriving DecidableEq

/-- Match of `{status: 'verified', verifiedAt: {$gte: now - MS_24H}}`
(documents without a `verifiedAt` never match `$gte`). -/
def isVerifiedIn (now : ℤ) (w : WRec) : Bool :=
  decide (w.status = WStatus.verified) &&
    (match w.verifiedAt with
     | some t => decide (now - MS_24H ≤ t)
     | none => false)

/-- Match of `{status: 'pending', requestedAt: {$gte: now - MS_24H}}`. -/
def isPendingIn (now : ℤ) (w : WRec) : Bool :=
  decide (w.status = WStatus.pending) && decide (now - MS_24H ≤ w.requestedAt)

/-- The `verifiedTotal` / `verified24` aggregation: sum of `amount` over
the user's verified records whose verification time is in the trailing
24-hour window. -/
def verifiedTotal (l : List WRec) (now : ℤ) : ℚ :=
  ((l.filter (isVerifiedIn now)).map WRec.amount).sum

/-- The `pendingTotal` / `pending24` aggregation. -/
def pendingTotal (l : List WRec) (now : ℤ) : ℚ :=
  ((l.filter (isPendingIn now)).map WRec.amount).sum

/-- Minimum of a list of timestamps (`findOne().sort({field: 1})`). -/
def listMin? : List ℤ → Option ℤ
  | [] => none
  | x :: xs =>
    match listMin? xs with
    | none => some x
    | some m => some (min x m)

/-- `findOne({verified, in window}).sort({verifiedAt: 1})`'s `verifiedAt`. -/
def earliestVerifiedAt (l : List WRec) (now : ℤ) : Option ℤ :=
  listMin? ((l.filter (isVerifiedIn now)).filterMap WRec.verifiedAt)

/-- `findOne({pending, in window}).sort({requestedAt: 1})`'s `requestedAt`. -/
def earliestPendingAt (l : List WRec) (now : ℤ) : Option ℤ :=
  listMin? ((l.filter (isPendingIn now)).map WRec.requestedAt)

/-- The `earliestDate` merge: the earliest of the two candidate
timestamps (verified first, replaced by the pending one when earlier). -/
def earliestOf : Option ℤ → Option ℤ → Option ℤ
  | none, none => none
  | some a, none => some a
  | none, some b => some b
  | some a, some b => some (if b < a then b else a)

/-- The summary payload of `GET /withdraw/summary` (the `nextAllowedAt`
ISO string is modelled as a millisecond timestamp). -/
structure Summary where
  spent24 : ℚ
  pending24 : ℚ
  remainingVerified : ℚ
  remainingIncludingPending : ℚ
  cap : ℚ
  nextAllowedAt : Option ℤ
deriving DecidableEq

/-- `GET /withdraw/summary`.  `aggOk = false` models the aggregation
step throwing: the catch handler logs and resets both totals to zero and
the `nextAllowedAt` block then sees the zeroed totals. -/
def withdrawSummary (s : WState) (now : ℤ) (aggOk : Bool) : Summary :=
  let verifiedT := if aggOk then verifiedTotal s.ledger now else 0
  let pendingT := if aggOk then pendingTotal s.ledger now else 0
  let remainingVerified := max 0 (WITHDRAWAL_24H_CAP - verifiedT)
  let remainingIncludingPending := max 0 (WITHDRAWAL_24H_CAP - (verifiedT + pendingT))
  let nextAllowedAt :=
    if WITHDRAWAL_24H_CAP ≤ verifiedT + pendingT ∨ WITHDRAWAL_24H_CAP ≤ verifiedT then
      (earliestOf (earliestVerifiedAt s.ledger now) (earliestPendingAt s.ledger now)).map
        (· + MS_24H)
    else none
  ⟨round3 verifiedT, round3 pendingT, round3 remainingVerified,
   round3 remainingIncludingPending, WITHDRAWAL_24H_CAP, nextAllowedAt⟩

/-- Error outcomes of the withdrawal routes. -/
inductive WErr where
  | phoneRequired
  | invalidAmount
  | insufficientBalance
  | belowMinimum
  | capExceeded (remainingVerified remainingIncludingPending : ℚ) (nextAllowedAt : Option ℤ)
  | notPending
  | notFound
deriving DecidableEq

/-- `POST /withdraw`: validate phone and amount, clamp the requested
amount to the balance (full balance when omitted), enforce the minimum,
aggregate the 24-hour totals (zeroed when the aggregation throws,
`aggOk = false`), enforce the cap for non-admins, then persist one new
pending record with `requestedAt` set to now.  The user's balances are
not touched. -/
def requestWithdraw (s : WState) (now : ℤ) (phone : String)
    (amountRequested : Option ℚ) (aggOk : Bool) : WState × Except WErr WRec :=
  if phone = "" then (s, .error .phoneRequired)
  else if (match amountRequested with | some a => decide (a ≤ 0) | none => false) then
    (s, .error .invalidAmount)
  else
    let balance := s.balanceDollar
    let amount := match amountRequested with | none => balance | some a => min a balance
    if amount ≤ 0 then (s, .error .insufficientBalance)
    else if amount < MIN_WITHDRAW_AMOUNT then (s, .error .belowMinimum)
    else
      let verified24 := if aggOk then verifiedTotal s.ledger now else 0
      let pending24 := if aggOk then pendingTotal s.ledger now else 0
      let remainingVerified := max 0 (WITHDRAWAL_24H_CAP - verified24)
      let remainingIncludingPending :=
        max 0 (WITHDRAWAL_24H_CAP - (verified24 + pending24))
      if ¬s.isAdmin ∧ remainingIncludingPending < amount then
        let nextAllowedAt :=
          (earliestOf (earliestVerifiedAt s.ledger now) (earliestPendingAt s.ledger now)).map
            (· + MS_24H)
        (s, .error (.capExceeded (round3 remainingVerified)
          (round3 remainingIncludingPending) nextAllowedAt))
      else
        let w : WRec := ⟨round3 amount, phone, .pending, now, none⟩
        ({ s with ledger := s.ledger ++ [w] }, .ok w)

/-- `POST /withdrawals/:id/verify` (admin): only pending records;
recompute the verified 24-hour total (the pending record itself never
matches the `status: 'verified'` filter, so it is excluded); reject when
the amount exceeds the remaining headroom; otherwise debit
`min(balance, amount)` and mark the record verified now. -/
def verifyWithdraw (s : WState) (idx : ℕ) (now : ℤ) : WState × Except WErr Unit :=
  match s.ledger.get? idx with
  | none => (s, .error .notFound)
  | some w =>
    if w.status ≠ WStatus.pending then (s, .error .notPending)
    else
      let verified24 := verifiedTotal s.ledger now
      let remaining := max 0 (WITHDRAWAL_24H_CAP - verified24)
      if remaining < w.amount then
        let nextAllowedAt :=
          if WITHDRAWAL_24H_CAP ≤ verified24 then
            (earliestVerifiedAt s.ledger now).map (· + MS_24H)
          else none
        (s, .error (.capExceeded (round3 remaining) (round3 remaining) nextAllowedAt))
      else
        let deduct := min s.balanceDollar w.amount
        let w2 := { w with status := WStatus.verified, verifiedAt := some now }
        ({ s with
            balanceDollar := round6 (s.balanceDollar - deduct),
            ledger := s.ledger.set idx w2 },
         .ok ())

/-- `POST /withdrawals/:id/reject` (admin): only pending records; mark
rejected (the route also stamps `verifiedAt`); no balance effect. -/
def rejectWithdraw (s : WState) (idx : ℕ) (now : ℤ) : WState × Except WErr Unit :=
  match s.ledger.get? idx with
  | none => (s, .error .notFound)
  | some w =>
    if w.status ≠ WStatus.pending then (s, .error .notPending)
    else
      let w2 := { w with status := WStatus.rejected, verifiedAt := some now }
      ({ s with ledger := s.ledger.set idx w2 }, .ok ())

/-- `DELETE /withdraw/:id`: owners may remove pending records, admins
any record; the record is removed outright. -/
def removeWithdraw (s : WState) (idx : ℕ) (actorAdmin : Bool) : WState × Except WErr Unit :=
  match s.ledger.get? idx with
  | none => (s, .error .notFound)
  | some w =>
    if ¬actorAdmin ∧ w.status ≠ WStatus.pending then (s, .error .notPending)
    else ({ s with ledger := s.ledger.eraseIdx idx }, .ok ())

/-! ### Rounding and aggregation lemmas -/

/-- `toFixed(3)` is the identity on amounts held at 3 decimal places. -/
theorem round3_int_div (k : ℤ) : round3 ((k : ℚ)/1000) = (k : ℚ)/1000 := by
  unfold round3
  rw [div_mul_cancel₀ _ (by norm_num : (1000 : ℚ) ≠ 0)]
  rw [show ⌊(k : ℚ) + 1/2⌋ = k from jsRound_intCast k]

/-- `toFixed(6)` is the identity on amounts held at 6 decimal places. -/
theorem round6_int_div (k : ℤ) : round6 ((k : ℚ)/1000000) = (k : ℚ)/1000000 := by
  unfold round6
  rw [div_mul_cancel₀ _ (by norm_num : (1000000 : ℚ) ≠ 0)]
  rw [show ⌊(k : ℚ) + 1/2⌋ = k from jsRound_intCast k]

theorem round3_nonneg (q : ℚ) (h : 0 ≤ q) : 0 ≤ round3 q := by
  unfold round3
  have h1 : (0 : ℤ) ≤ ⌊q * 1000 + 1/2⌋ := by
    apply Int.le_floor.2
    push_cast
    linarith
  positivity

theorem round6_nonneg (q : ℚ) (h : 0 ≤ q) : 0 ≤ round6 q := by
  unfold round6
  have h1 : (0 : ℤ) ≤ ⌊q * 1000000 + 1/2⌋ := by
    apply Int.le_floor.2
    push_cast
    linarith
  positivity

/-- Sums of amounts held at 3 decimal places stay at 3 decimal places. -/
theorem q3_sum (l : List ℚ) (h : ∀ q ∈ l, ∃ k : ℤ, q = (k : ℚ)/1000) :
    ∃ k : ℤ, l.sum = (k : ℚ)/1000 := by
  induction l with
  | nil => exact ⟨0, by simp⟩
  | cons x xs ih =>
    obtain ⟨k1, hk1⟩ := h x (by simp)
    obtain ⟨k2, hk2⟩ := ih (fun q hq => h q (List.mem_cons_of_mem x hq))
    refine ⟨k1 + k2, ?_⟩
    rw [List.sum_cons, hk1, hk2]
    push_cast
    ring

theorem q3_sub (a b : ℚ) (ha : ∃ k : ℤ, a = (k : ℚ)/1000) (hb : ∃ k : ℤ, b = (k : ℚ)/1000) :
    ∃ k : ℤ, a - b = (k : ℚ)/1000 := by
  obtain ⟨k1, rfl⟩ := ha
  obtain ⟨k2, rfl⟩ := hb
  refine ⟨k1 - k2, ?_⟩
  push_cast
  ring

theorem q3_max0 (a : ℚ) (ha : ∃ k : ℤ, a = (k : ℚ)/1000) :
    ∃ k : ℤ, max 0 a = (k : ℚ)/1000 := by
  rcases le_total a 0 with h | h
  · exact ⟨0, by rw [max_eq_left h] ; norm_num⟩
  · obtain ⟨k, rfl⟩ := ha
    exact ⟨k, by rw [max_eq_right h]⟩

theorem round3_q3 (a : ℚ) (ha : ∃ k : ℤ, a = (k : ℚ)/1000) : round3 a = a := by
  obtain ⟨k, rfl⟩ := ha
  exact round3_int_div k

/-- Appending one record changes an aggregation by that record's
contribution. -/
theorem filter_sum_append (l : List WRec) (w : WRec) (f : WRec → Bool) :
    (((l ++ [w]).filter f).map WRec.amount).sum
      = ((l.filter f).map WRec.amount).sum + (if f w then w.amount else 0) := by
  rw [List.filter_append, List.map_append, List.sum_append]
  by_cases hf : f w <;> simp [hf]

/-- Replacing the record at a position changes an aggregation by the
difference of the two records' contributions. -/
theorem filter_sum_set (l : List WRec) (i : ℕ) (w w' : WRec) (f : WRec → Bool)
    (h : l.get? i = some w) :
    (((l.set i w').filter f).map WRec.amount).sum
      = ((l.filter f).map WRec.amount).sum
        + (if f w' then w'.amount else 0) - (if f w then w.amount else 0) := by
  induction l generalizing i with
  | nil => simp at h
  | cons x xs ih =>
    cases i with
    | zero =>
      rw [List.get?_cons_zero, Option.some_inj] at h
      subst h
      by_cases hw : f x <;> by_cases hw' : f w' <;>
        simp [List.filter_cons, hw, hw'] <;> ring
    | succ n =>
      rw [List.get?_cons_succ] at h
      by_cases hx : f x <;> simp [List.filter_cons, hx, ih n h] <;> ring

/-- Removing a record never increases an aggregation of nonnegative
amounts. -/
theorem filter_sum_eraseIdx (l : List WRec) (i : ℕ) (f : WRec → Bool)
    (hnn : ∀ w ∈ l, 0 ≤ w.amount) :
    (((l.eraseIdx i).filter f).map WRec.amount).sum
      ≤ ((l.filter f).map WRec.amount).sum := by
  induction l generalizing i with
  | nil => simp
  | cons x xs ih =>
    cases i with
    | zero =>
      rw [List.eraseIdx_cons_zero]
      have hx0 := hnn x (by simp)
      by_cases hx : f x
      · simp only [List.filter_cons, hx, ite_true, List.map_cons, List.sum_cons]
        linarith
      · simp [List.filter_cons, hx]
    | succ n =>
      rw [List.eraseIdx_cons_succ]
      have ihn := ih n (fun w hw => hnn w (List.mem_cons_of_mem x hw))
      by_cases hx : f x <;> simp only [List.filter_cons, hx, ite_true, ite_false,
        Bool.false_eq_true, List.map_cons, List.sum_cons] <;> linarith

/-- Sums over a stricter filter of nonnegative amounts are smaller. -/
theorem filter_sum_le_of_imp (l : List WRec) (p q : WRec → Bool)
    (hpq : ∀ w ∈ l, p w = true → q w = true)
    (hnn : ∀ w ∈ l, 0 ≤ w.amount) :
    ((l.filter p).map WRec.amount).sum ≤ ((l.filter q).map WRec.amount).sum := by
  induction l with
  | nil => simp
  | cons x xs ih =>
    have ihx := ih (fun w hw => hpq w (List.mem_cons_of_mem x hw))
      (fun w hw => hnn w (List.mem_cons_of_mem x hw))
    have hx0 := hnn x (by simp)
    by_cases hp : p x
    · have hqx : q x = true := hpq x (by simp) hp
      simp only [List.filter_cons, hp, hqx, ite_true, List.map_cons, List.sum_cons]
      linarith
    · by_cases hq : q x
      · simp only [List.filter_cons, hp, hq, ite_true, ite_false, Bool.false_eq_true,
          List.map_cons, List.sum_cons]
        linarith
      · simp only [List.filter_cons, hp, hq, ite_false, Bool.false_eq_true]
        exact ihx

theorem filter_sum_nonneg (l : List WRec) (f : WRec → Bool)
    (hnn : ∀ w ∈ l, 0 ≤ w.amount) :
    0 ≤ ((l.filter f).map WRec.amount).sum := by
  induction l with
  | nil => simp
  | cons x xs ih =>
    have ihx := ih (fun w hw => hnn w (List.mem_cons_of_mem x hw))
    by_cases hx : f x
    · have := hnn x (by simp)
      simp only [List.filter_cons, hx, ite_true, List.map_cons, List.sum_cons]
      linarith
    · simpa [List.filter_cons, hx] using ihx

/-- Shrinking the window (a later `now`) can only shrink the verified
aggregation. -/
theorem isVerifiedIn_mono {t t' : ℤ} (h : t ≤ t') (w : WRec)
    (hw : isVerifiedIn t' w = true) : isVerifiedIn t w = true := by
  unfold isVerifiedIn at hw ⊢
  rcases hv : w.verifiedAt with _ | ts
  · rw [hv] at hw
    simp at hw
  · rw [hv] at hw
    simp only [Bool.and_eq_true, decide_eq_true_eq] at hw ⊢
    obtain ⟨hs, hts⟩ := hw
    exact ⟨hs, by omega⟩

theorem verifiedTotal_mono (l : List WRec) {t t' : ℤ} (h : t ≤ t')
    (hnn : ∀ w ∈ l, 0 ≤ w.amount) :
    verifiedTotal l t' ≤ verifiedTotal l t :=
  filter_sum_le_of_imp l _ _ (fun w _ hw => isVerifiedIn_mono h w hw) hnn

theorem isVerifiedIn_of_status_ne (u : ℤ) (w : WRec)
    (h : w.status ≠ WStatus.verified) : isVerifiedIn u w = false := by
  unfold isVerifiedIn
  rw [decide_eq_false h]
  simp

/-! ### Shapes of the four ledger operations -/

theorem requestWithdraw_balances (s : WState) (now : ℤ) (ph : String)
    (amt : Option ℚ) (aggOk : Bool) :
    (requestWithdraw s now ph amt aggOk).1.balanceDollar = s.balanceDollar ∧
    (requestWithdraw s now ph amt aggOk).1.pointsCurrent = s.pointsCurrent := by
  simp only [requestWithdraw]
  split_ifs <;> exact ⟨rfl, rfl⟩

theorem requestWithdraw_ledger_cases (s : WState) (now : ℤ) (ph : String)
    (amt : Option ℚ) (aggOk : Bool) :
    (requestWithdraw s now ph amt aggOk).1.ledger = s.ledger ∨
    ∃ a : ℚ, MIN_WITHDRAW_AMOUNT ≤ a ∧
      (requestWithdraw s now ph amt aggOk).1.ledger =
        s.ledger ++ [⟨round3 a, ph, WStatus.pending, now, none⟩] := by
  simp only [requestWithdraw]
  split_ifs <;>
    first
      | exact Or.inl rfl
      | exact Or.inr ⟨_, le_of_not_lt (by assumption), rfl⟩

theorem verifyWithdraw_ledger_cases (s : WState) (idx : ℕ) (now : ℤ) :
    (verifyWithdraw s idx now).1.ledger = s.ledger ∨
    ∃ w, s.ledger.get? idx = some w ∧ w.status = WStatus.pending ∧
      w.amount ≤ max 0 (WITHDRAWAL_24H_CAP - verifiedTotal s.ledger now) ∧
      (verifyWithdraw s idx now).1.ledger =
        s.ledger.set idx { w with status := WStatus.verified, verifiedAt := some now } := by
  unfold verifyWithdraw
  rcases hg : s.ledger.get? idx with _ | w
  · exact Or.inl rfl
  · simp only []
    by_cases h1 : w.status ≠ WStatus.pending
    · rw [if_pos h1]
      exact Or.inl rfl
    · rw [if_neg h1]
      by_cases h2 : max 0 (WITHDRAWAL_24H_CAP - verifiedTotal s.ledger now) < w.amount
      · rw [if_pos h2]
        exact Or.inl rfl
      · rw [if_neg h2]
        exact Or.inr ⟨w, rfl, not_ne_iff.1 h1, le_of_not_lt h2, rfl⟩

theorem rejectWithdraw_ledger_cases (s : WState) (idx : ℕ) (now : ℤ) :
    (rejectWithdraw s idx now).1.ledger = s.ledger ∨
    ∃ w, s.ledger.get? idx = some w ∧
      (rejectWithdraw s idx now).1.ledger =
        s.ledger.set idx { w with status := WStatus.rejected, verifiedAt := some now } := by
  unfold rejectWithdraw
  rcases hg : s.ledger.get? idx with _ | w
  · exact Or.inl rfl
  · simp only []
    by_cases h1 : w.status ≠ WStatus.pending
    · rw [if_pos h1]
      exact Or.inl rfl
    · rw [if_neg h1]
      exact Or.inr ⟨w, rfl, rfl⟩

theorem removeWithdraw_ledger_cases (s : WState) (idx : ℕ) (adm : Bool) :
    (removeWithdraw s idx adm).1.ledger = s.ledger ∨
    (removeWithdraw s idx adm).1.ledger = s.ledger.eraseIdx idx := by
  unfold removeWithdraw
  rcases hg : s.ledger.get? idx with _ | w
  · exact Or.inl rfl
  · simp only []
    by_cases h1 : ¬adm = true ∧ w.status ≠ WStatus.pending
    · rw [if_pos h1]
      exact Or.inl rfl
    · rw [if_neg h1]
      exact Or.inr rfl

/-! ### Reachable states and the 24-hour verified-cap invariant -/

/-- Invariant carried by every reachable ledger: amounts are
nonnegative, no verification timestamp lies in the future, and the
verified aggregation never exceeds the cap at the current or any later
time. -/
def LedgerOk (t : ℤ) (l : List WRec) : Prop :=
  (∀ w ∈ l, 0 ≤ w.amount) ∧
  (∀ w ∈ l, ∀ ts, w.verifiedAt = some ts → ts ≤ t) ∧
  (∀ u, t ≤ u → verifiedTotal l u ≤ WITHDRAWAL_24H_CAP)

theorem LedgerOk.mono {t t' : ℤ} (h : t ≤ t') {l : List WRec} (hs : LedgerOk t l) :
    LedgerOk t' l :=
  ⟨hs.1, fun w hw ts hts => le_trans (hs.2.1 w hw ts hts) h,
   fun u hu => hs.2.2 u (le_trans h hu)⟩

/-- The states reachable from a fresh account through the withdrawal
routes, with monotone wall-clock time.  (Operations that do not touch the
withdrawal ledger — spins and conversions — cannot affect it and are
omitted.) -/
inductive WReach : ℤ → WState → Prop where
  | init (t : ℤ) (b p : ℚ) (adm : Bool) : WReach t ⟨b, p, adm, []⟩
  | request {t : ℤ} {s : WState} (t' : ℤ) (ph : String) (amt : Option ℚ)
      (aggOk : Bool) (hs : WReach t s) (ht : t ≤ t') :
      WReach t' (requestWithdraw s t' ph amt aggOk).1
  | verify {t : ℤ} {s : WState} (t' : ℤ) (idx : ℕ) (hs : WReach t s) (ht : t ≤ t') :
      WReach t' (verifyWithdraw s idx t').1
  | reject {t : ℤ} {s : WState} (t' : ℤ) (idx : ℕ) (hs : WReach t s) (ht : t ≤ t') :
      WReach t' (rejectWithdraw s idx t').1
  | remove {t : ℤ} {s : WState} (t' : ℤ) (idx : ℕ) (adm : Bool) (hs : WReach t s)
      (ht : t ≤ t') : WReach t' (removeWithdraw s idx adm).1

theorem wreach_ledgerOk {t : ℤ} {s : WState} (h : WReach t s) : LedgerOk t s.ledger := by
  induction h with
  | init t b p adm =>
    refine ⟨by simp, by simp, fun u hu => ?_⟩
    rw [show verifiedTotal ([] : List WRec) u = 0 from rfl]
    norm_num [WITHDRAWAL_24H_CAP]
  | @request t0 s0 t' ph amt aggOk hs ht ih =>
    have ih2 := LedgerOk.mono ht ih
    rcases requestWithdraw_ledger_cases s0 t' ph amt aggOk with he | ⟨a, ha, he⟩
    · rw [he]
      exact ih2
    · rw [he]
      refine ⟨?_, ?_, ?_⟩
      · intro w hw
        rcases List.mem_append.1 hw with hw | hw
        · exact ih2.1 w hw
        · rw [List.mem_singleton.1 hw]
          exact round3_nonneg a (le_trans (by norm_num [MIN_WITHDRAW_AMOUNT]) ha)
      · intro w hw ts hts
        rcases List.mem_append.1 hw with hw | hw
        · exact ih2.2.1 w hw ts hts
        · rw [List.mem_singleton.1 hw] at hts
          exact absurd hts (by simp)
      · intro u hu
        have hz : verifiedTotal
            (s0.ledger ++ [(⟨round3 a, ph, WStatus.pending, t', none⟩ : WRec)]) u
            = verifiedTotal s0.ledger u := by
          unfold verifiedTotal
          rw [filter_sum_append, isVerifiedIn_of_status_ne u _ (by simp)]
          simp
        rw [hz]
        exact ih2.2.2 u hu
  | @verify t0 s0 t' idx hs ht ih =>
    have ih2 := LedgerOk.mono ht ih
    rcases verifyWithdraw_ledger_cases s0 idx t' with he | ⟨w, hg, hwp, hcap, he⟩
    · rw [he]
      exact ih2
    · rw [he]
      refine ⟨?_, ?_, ?_⟩
      · intro v hv
        rcases List.mem_or_eq_of_mem_set hv with hv | rfl
        · exact ih2.1 v hv
        · exact ih2.1 w (List.get?_mem hg)
      · intro v hv ts hts
        rcases List.mem_or_eq_of_mem_set hv with hv | rfl
        · exact ih2.2.1 v hv ts hts
        · have h2 : some t' = some ts := hts
          rw [← Option.some_inj.1 h2]
      · intro u hu
        have hz : verifiedTotal
            (s0.ledger.set idx { w with status := WStatus.verified, verifiedAt := some t' }) u
            = verifiedTotal s0.ledger u
              + (if isVerifiedIn u { w with status := WStatus.verified, verifiedAt := some t' }
                  then w.amount else 0)
              - (if isVerifiedIn u w then w.amount else 0) := by
          unfold verifiedTotal
          exact filter_sum_set s0.ledger idx w _ (isVerifiedIn u) hg
        rw [hz, isVerifiedIn_of_status_ne u w (by rw [hwp] ; simp)]
        have hcapge : verifiedTotal s0.ledger t' ≤ WITHDRAWAL_24H_CAP := ih2.2.2 t' le_rfl
        have hmono : verifiedTotal s0.ledger u ≤ verifiedTotal s0.ledger t' :=
          verifiedTotal_mono s0.ledger hu ih2.1
        rw [max_eq_right (by linarith)] at hcap
        by_cases hin :
            isVerifiedIn u { w with status := WStatus.verified, verifiedAt := some t' } = true
        · rw [hin]
          simp only [ite_true, Bool.false_eq_true, ite_false]
          linarith
        · rw [Bool.not_eq_true] at hin
          rw [hin]
          have hcapu := ih2.2.2 u hu
          simp only [Bool.false_eq_true, ite_false]
          linarith
  | @reject t0 s0 t' idx hs ht ih =>
    have ih2 := LedgerOk.mono ht ih
    rcases rejectWithdraw_ledger_cases s0 idx t' with he | ⟨w, hg, he⟩
    · rw [he]
      exact ih2
    · rw [he]
      refine ⟨?_, ?_, ?_⟩
      · intro v hv
        rcases List.mem_or_eq_of_mem_set hv with hv | rfl
        · exact ih2.1 v hv
        · exact ih2.1 w (List.get?_mem hg)
      · intro v hv ts hts
        rcases List.mem_or_eq_of_mem_set hv with hv | rfl
        · exact ih2.2.1 v hv ts hts
        · have h2 : some t' = some ts := hts
          rw [← Option.some_inj.1 h2]
      · intro u hu
        have hz : verifiedTotal
            (s0.ledger.set idx { w with status := WStatus.rejected, verifiedAt := some t' }) u
            = verifiedTotal s0.ledger u
              + (if isVerifiedIn u { w with status := WStatus.rejected, verifiedAt := some t' }
                  then w.amount else 0)
              - (if isVerifiedIn u w then w.amount else 0) := by
          unfold verifiedTotal
          exact filter_sum_set s0.ledger idx w _ (isVerifiedIn u) hg
        rw [hz, isVerifiedIn_of_status_ne u _ (by simp)]
        have hcapu := ih2.2.2 u hu
        have hnn := ih2.1 w (List.get?_mem hg)
        rcases hval : isVerifiedIn u w
        · simp only [Bool.false_eq_true, ite_false]
          linarith
        · simp only [ite_true, Bool.false_eq_true, ite_false]
          linarith
  | @remove t0 s0 t' idx adm hs ht ih =>
    have ih2 := LedgerOk.mono ht ih
    rcases removeWithdraw_ledger_cases s0 idx adm with he | he
    · rw [he]
      exact ih2
    · rw [he]
      refine ⟨?_, ?_, ?_⟩
      · intro v hv
        exact ih2.1 v (List.eraseIdx_subset _ _ hv)
      · intro v hv ts hts
        exact ih2.2.1 v (List.eraseIdx_subset _ _ hv) ts hts
      · intro u hu
        calc verifiedTotal (s0.ledger.eraseIdx idx) u
            ≤ verifiedTotal s0.ledger u :=
              filter_sum_eraseIdx s0.ledger idx (isVerifiedIn u) ih2.1
          _ ≤ WITHDRAWAL_24H_CAP := ih2.2.2 u hu

/-- C4: (1) an admin verification of a pending withdrawal whose (positive)
amount exceeds the cap minus the user's trailing-24h verified total —
computed by an aggregation that the pending record itself never matches —
is rejected with no state change at all; (2) consequently, in every
reachable state the user's verified total over the trailing 24 hours
never exceeds the cap, at the state's time or any later time. -/
theorem c4_verify_cap_and_invariant :
    (∀ (s : WState) (idx : ℕ) (now : ℤ) (w : WRec),
        s.ledger.get? idx = some w → w.status = WStatus.pending →
        0 < w.amount →
        WITHDRAWAL_24H_CAP - verifiedTotal s.ledger now < w.amount →
        ∃ e, verifyWithdraw s idx now = (s, Except.error e)) ∧
    (∀ (t : ℤ) (s : WState), WReach t s →
        ∀ u, t ≤ u → verifiedTotal s.ledger u ≤ WITHDRAWAL_24H_CAP) := by
  constructor
  · intro s idx now w hg hp hpos hover
    have hcond : max 0 (WITHDRAWAL_24H_CAP - verifiedTotal s.ledger now) < w.amount :=
      max_lt hpos hover
    refine ⟨WErr.capExceeded
      (round3 (max 0 (WITHDRAWAL_24H_CAP - verifiedTotal s.ledger now)))
      (round3 (max 0 (WITHDRAWAL_24H_CAP - verifiedTotal s.ledger now)))
      (if WITHDRAWAL_24H_CAP ≤ verifiedTotal s.ledger now then
        (earliestVerifiedAt s.ledger now).map (· + MS_24H) else none), ?_⟩
    unfold verifyWithdraw
    rw [hg]
    simp only []
    rw [if_neg (by rw [hp] ; simp), if_pos hcond]
  · intro t s h u hu
    exact (wreach_ledgerOk h).2.2 u hu

/-- Witness for C4: an over-cap verification is rejected on a concrete
ledger, and the invariant holds at a concrete reachable state. -/
theorem c4_verify_cap_and_invariant_witness :
    (∃ e, verifyWithdraw (WState.mk 50 0 false
        [⟨200, "x", WStatus.pending, 0, none⟩]) 0 0 =
      (WState.mk 50 0 false [⟨200, "x", WStatus.pending, 0, none⟩], Except.error e)) ∧
    verifiedTotal (WState.mk 0 0 false []).ledger 5 ≤ WITHDRAWAL_24H_CAP := by
  constructor
  · exact c4_verify_cap_and_invariant.1 _ 0 0 ⟨200, "x", WStatus.pending, 0, none⟩
      rfl rfl (by norm_num)
      (by norm_num [verifiedTotal, isVerifiedIn, WITHDRAWAL_24H_CAP, List.filter])
  · exact c4_verify_cap_and_invariant.2 0 _ (WReach.init 0 0 0 false) 5 (by norm_num)

/-- C6: a successful withdrawal request appends exactly one new record,
in the pending state, stamped with the current time, and leaves both the
currency balance and the point balance unchanged. -/
theorem c6_request_pending_no_debit (s : WState) (now : ℤ) (ph : String)
    (amt : Option ℚ) (aggOk : Bool) (s2 : WState) (w : WRec)
    (h : requestWithdraw s now ph amt aggOk = (s2, Except.ok w)) :
    s2.ledger = s.ledger ++ [w] ∧ w.status = WStatus.pending ∧ w.requestedAt = now ∧
    s2.balanceDollar = s.balanceDollar ∧ s2.pointsCurrent = s.pointsCurrent := by
  simp only [requestWithdraw] at h
  split_ifs at h
  all_goals
    first
      | exact Except.noConfusion (congrArg Prod.snd h)
      | · have h1 := congrArg Prod.fst h
          have h2 := Except.ok.inj (congrArg Prod.snd h)
          subst h1
          subst h2
          exact ⟨rfl, rfl, rfl, rfl, rfl⟩

/-- Witness for C6: a user with a $50 balance requesting the full
balance. -/
theorem c6_request_pending_no_debit_witness :
    requestWithdraw (WState.mk 50 0 false []) 5 "x" none true =
      (WState.mk 50 0 false [⟨round3 50, "x", WStatus.pending, 5, none⟩],
       Except.ok ⟨round3 50, "x", WStatus.pending, 5, none⟩) ∧
    ((WState.mk 50 0 false [⟨round3 50, "x", WStatus.pending, 5, none⟩]).ledger =
        (WState.mk 50 0 false []).ledger ++ [⟨round3 50, "x", WStatus.pending, 5, none⟩] ∧
      (⟨round3 50, "x", WStatus.pending, 5, none⟩ : WRec).status = WStatus.pending ∧
      (⟨round3 50, "x", WStatus.pending, 5, none⟩ : WRec).requestedAt = 5 ∧
      (WState.mk 50 0 false [⟨round3 50, "x", WStatus.pending, 5, none⟩]).balanceDollar =
        (WState.mk 50 0 false []).balanceDollar ∧
      (WState.mk 50 0 false [⟨round3 50, "x", WStatus.pending, 5, none⟩]).pointsCurrent =
        (WState.mk 50 0 false []).pointsCurrent) := by
  have h : requestWithdraw (WState.mk 50 0 false []) 5 "x" none true =
      (WState.mk 50 0 false [⟨round3 50, "x", WStatus.pending, 5, none⟩],
       Except.ok ⟨round3 50, "x", WStatus.pending, 5, none⟩) := by
    simp only [requestWithdraw]
    norm_num [verifiedTotal, pendingTotal, WITHDRAWAL_24H_CAP, MIN_WITHDRAW_AMOUNT,
      show ¬("x" : String) = "" from by decide]
  exact ⟨h, c6_request_pending_no_debit _ 5 "x" none true _ _ h⟩

/-- Discriminator for apparent success of a route. -/
def isOkE {ε α : Type} : Except ε α → Bool
  | .ok _ => true
  | .error _ => false

theorem round3_zero : round3 (0 : ℚ) = 0 := by
  rw [show (0 : ℚ) = ((0 : ℤ) : ℚ)/1000 by norm_num, round3_int_div]

theorem round3_hundred : round3 (100 : ℚ) = 100 := by
  rw [show (100 : ℚ) = ((100000 : ℤ) : ℚ)/1000 by norm_num, round3_int_div]

/-- C10 counterexample: a user whose trailing-24h verified total already
equals the cap sends a withdrawal request while the aggregation fails;
the claim demands a generic server error, but the handler completes as an
apparent success (and creates the record), whereas the same request with
a working aggregation is rejected for exceeding the cap. -/
theorem c10_counterexample :
    verifiedTotal (WState.mk 50 0 false
        [⟨100, "x", WStatus.verified, -7200000, some (-3600000)⟩]).ledger 0 =
      WITHDRAWAL_24H_CAP ∧
    isOkE (requestWithdraw (WState.mk 50 0 false
        [⟨100, "x", WStatus.verified, -7200000, some (-3600000)⟩]) 0 "x" (some 30) false).2
      = true ∧
    isOkE (requestWithdraw (WState.mk 50 0 false
        [⟨100, "x", WStatus.verified, -7200000, some (-3600000)⟩]) 0 "x" (some 30) true).2
      = false := by
  refine ⟨?_, ?_, ?_⟩
  · norm_num [verifiedTotal, isVerifiedIn, MS_24H, WITHDRAWAL_24H_CAP, List.filter]
  · simp only [requestWithdraw]
    norm_num [isOkE, verifiedTotal, pendingTotal, WITHDRAWAL_24H_CAP, MIN_WITHDRAW_AMOUNT,
      show ¬("x" : String) = "" from by decide]
  · simp only [requestWithdraw]
    norm_num [isOkE, verifiedTotal, pendingTotal, isVerifiedIn, isPendingIn, MS_24H,
      WITHDRAWAL_24H_CAP, MIN_WITHDRAW_AMOUNT, List.filter,
      show ¬("x" : String) = "" from by decide,
      show decide (WStatus.verified = WStatus.pending) = false from rfl,
      show decide (WStatus.verified = WStatus.verified) = true from rfl]

/-- C10 amended: when the 24-hour aggregation fails, the withdrawal
request is not reported as a server error — the handler logs, zeroes both
rolling totals, cap-checks against the full cap and completes as a
success, appending the record; the summary route likewise answers with a
zeroed, full-headroom payload instead of an error. -/
theorem c10_agg_failure_proceeds_as_success (s : WState) (now : ℤ) (ph : String) (a : ℚ)
    (hph : ¬ph = "") (ha : 0 < a)
    (hmin : MIN_WITHDRAW_AMOUNT ≤ min a s.balanceDollar)
    (hcap : min a s.balanceDollar ≤ WITHDRAWAL_24H_CAP) :
    ((requestWithdraw s now ph (some a) false).2 =
       Except.ok ⟨round3 (min a s.balanceDollar), ph, WStatus.pending, now, none⟩ ∧
     (requestWithdraw s now ph (some a) false).1.ledger =
       s.ledger ++ [⟨round3 (min a s.balanceDollar), ph, WStatus.pending, now, none⟩]) ∧
    withdrawSummary s now false =
      ⟨0, 0, WITHDRAWAL_24H_CAP, WITHDRAWAL_24H_CAP, WITHDRAWAL_24H_CAP, none⟩ := by
  constructor
  · have hpos : ¬min a s.balanceDollar ≤ 0 :=
      not_le.2 (lt_of_lt_of_le (by norm_num [MIN_WITHDRAW_AMOUNT]) hmin)
    simp only [requestWithdraw]
    rw [if_neg hph]
    rw [if_neg (show ¬(decide (a ≤ 0) = true) by simp only [decide_eq_true_eq] ; exact not_le.2 ha)]
    rw [if_neg hpos, if_neg (not_lt.2 hmin)]
    rw [if_neg ?hcapcond]
    case hcapcond =>
      rintro ⟨-, hlt⟩
      rw [show (if (false : Bool) = true then verifiedTotal s.ledger now else 0)
          + (if (false : Bool) = true then pendingTotal s.ledger now else 0) = 0 by norm_num] at hlt
      rw [sub_zero, max_eq_right (by norm_num [WITHDRAWAL_24H_CAP])] at hlt
      exact absurd hlt (not_lt.2 hcap)
    exact ⟨rfl, rfl⟩
  · simp only [withdrawSummary]
    norm_num [WITHDRAWAL_24H_CAP, round3_zero, round3_hundred]

/-- Witness for amended C10 at a concrete over-cap ledger. -/
theorem c10_agg_failure_proceeds_as_success_witness :
    (¬("x" : String) = "") ∧
    ((0 : ℚ) < 30) ∧
    MIN_WITHDRAW_AMOUNT ≤ min (30 : ℚ) (WState.mk 50 0 false
        [⟨100, "x", WStatus.verified, -7200000, some (-3600000)⟩]).balanceDollar ∧
    (((requestWithdraw (WState.mk 50 0 false
          [⟨100, "x", WStatus.verified, -7200000, some (-3600000)⟩]) 0 "x" (some 30) false).2 =
        Except.ok ⟨round3 (min (30 : ℚ) (WState.mk 50 0 false
          [⟨100, "x", WStatus.verified, -7200000, some (-3600000)⟩]).balanceDollar),
          "x", WStatus.pending, 0, none⟩ ∧
      (requestWithdraw (WState.mk 50 0 false
          [⟨100, "x", WStatus.verified, -7200000, some (-3600000)⟩]) 0 "x" (some 30) false).1.ledger =
        (WState.mk 50 0 false
          [⟨100, "x", WStatus.verified, -7200000, some (-3600000)⟩]).ledger ++
          [⟨round3 (min (30 : ℚ) (WState.mk 50 0 false
            [⟨100, "x", WStatus.verified, -7200000, some (-3600000)⟩]).balanceDollar),
            "x", WStatus.pending, 0, none⟩]) ∧
     withdrawSummary (WState.mk 50 0 false
        [⟨100, "x", WStatus.verified, -7200000, some (-3600000)⟩]) 0 false =
      ⟨0, 0, WITHDRAWAL_24H_CAP, WITHDRAWAL_24H_CAP, WITHDRAWAL_24H_CAP, none⟩) :=
  ⟨by decide, by norm_num, by norm_num [MIN_WITHDRAW_AMOUNT],
   c10_agg_failure_proceeds_as_success _ 0 "x" 30 (by decide) (by norm_num)
     (by norm_num [MIN_WITHDRAW_AMOUNT]) (by norm_num [WITHDRAWAL_24H_CAP])⟩

/-! ### C5: the summary against the specification's formulas -/

/-- Modelled from the spec's words: "`verifiedTotal24h` sums `amount`
over this user's `verified` records whose verification timestamp falls
within the trailing 24 hours". -/
def specVerifiedTotal24h (l : List WRec) (now : ℤ) : ℚ :=
  (l.map (fun w =>
    if w.status = WStatus.verified then
      match w.verifiedAt with
      | some ts => if now - MS_24H ≤ ts then w.amount else 0
      | none => 0
    else 0)).sum

/-- Modelled from the spec's words: "`pendingTotal24h` sums `amount` over
`pending` records whose request timestamp falls within the trailing 24
hours". -/
def specPendingTotal24h (l : List WRec) (now : ℤ) : ℚ :=
  (l.map (fun w =>
    if w.status = WStatus.pending ∧ now - MS_24H ≤ w.requestedAt then w.amount else 0)).sum

/-- The timestamps of the contributing records (verification time for
verified ones, request time for pending ones). -/
def specContribTimes (l : List WRec) (now : ℤ) : List ℤ :=
  ((l.filter (isVerifiedIn now)).filterMap WRec.verifiedAt)
    ++ ((l.filter (isPendingIn now)).map WRec.requestedAt)

theorem isVerifiedIn_none (now : ℤ) (w : WRec) (h : w.verifiedAt = none) :
    isVerifiedIn now w = false := by
  unfold isVerifiedIn
  rw [h]
  simp

theorem specVerifiedTotal24h_eq (l : List WRec) (now : ℤ) :
    specVerifiedTotal24h l now = verifiedTotal l now := by
  induction l with
  | nil => rfl
  | cons w ws ih =>
    unfold specVerifiedTotal24h verifiedTotal at ih ⊢
    rw [List.map_cons, List.sum_cons, List.filter_cons, ih]
    by_cases hs : w.status = WStatus.verified
    · rcases hv : w.verifiedAt with _ | ts
      · rw [if_pos hs, isVerifiedIn_none now w hv]
        simp
      · by_cases hts : now - MS_24H ≤ ts
        · rw [if_pos hs, show isVerifiedIn now w = true from ?_]
          · simp [hts]
          · unfold isVerifiedIn
            rw [hv, decide_eq_true hs]
            simpa using hts
        · rw [if_pos hs, show isVerifiedIn now w = false from ?_]
          · simp [hts]
          · unfold isVerifiedIn
            rw [hv]
            simp only [Bool.and_eq_false_iff, decide_eq_false_iff_not]
            exact Or.inr (by simpa using hts)
    · rw [if_neg hs, isVerifiedIn_of_status_ne now w hs]
      simp

theorem specPendingTotal24h_eq (l : List WRec) (now : ℤ) :
    specPendingTotal24h l now = pendingTotal l now := by
  induction l with
  | nil => rfl
  | cons w ws ih =>
    unfold specPendingTotal24h pendingTotal at ih ⊢
    rw [List.map_cons, List.sum_cons, List.filter_cons, ih]
    by_cases hc : w.status = WStatus.pending ∧ now - MS_24H ≤ w.requestedAt
    · rw [if_pos hc, show isPendingIn now w = true from ?_]
      · simp
      · unfold isPendingIn
        rw [decide_eq_true hc.1, decide_eq_true hc.2]
        rfl
    · rw [if_neg hc, show isPendingIn now w = false from ?_]
      · simp
      · unfold isPendingIn
        rcases not_and_or.1 hc with hcl | hcr
        · rw [decide_eq_false hcl]
          rfl
        · rw [decide_eq_false hcr]
          simp

theorem listMin?_eq_none_iff (L : List ℤ) : listMin? L = none ↔ L = [] := by
  cases L with
  | nil => simp [listMin?]
  | cons x xs =>
    cases h : listMin? xs <;> simp [listMin?, h]

theorem listMin?_eq_some_iff (L : List ℤ) (m : ℤ) :
    listMin? L = some m ↔ m ∈ L ∧ ∀ y ∈ L, m ≤ y := by
  induction L generalizing m with
  | nil => simp [listMin?]
  | cons x xs ih =>
    cases h : listMin? xs with
    | none =>
      rw [(listMin?_eq_none_iff xs).1 h]
      constructor
      · intro heq
        have hxm : x = m := by simpa [listMin?] using heq
        exact ⟨by simp [hxm], by simp [hxm]⟩
      · rintro ⟨h1, h2⟩
        have hm : m = x := by simpa using h1
        rw [show listMin? [x] = some x from rfl, hm]
    | some mm =>
      obtain ⟨hmem, hlb⟩ := (ih mm).1 h
      simp only [listMin?, h, Option.some_inj]
      constructor
      · rintro rfl
        refine ⟨?_, ?_⟩
        · rcases le_total x mm with hc | hc
          · rw [min_eq_left hc]
            exact List.mem_cons_self x xs
          · rw [min_eq_right hc]
            exact List.mem_cons_of_mem x hmem
        · intro y hy
          rcases List.mem_cons.1 hy with rfl | hy
          · exact min_le_left _ _
          · exact le_trans (min_le_right x mm) (hlb y hy)
      · rintro ⟨h1, h2⟩
        have hx : m ≤ x := h2 x (List.mem_cons_self x xs)
        have hmm2 : m ≤ mm := h2 mm (List.mem_cons_of_mem x hmem)
        have hub : min x mm ≤ m := by
          rcases List.mem_cons.1 h1 with rfl | h1
          · exact min_le_left _ _
          · exact le_trans (min_le_right x mm) (hlb m h1)
        exact le_antisymm hub (le_min hx hmm2)

theorem earliestOf_some_some (a b : ℤ) :
    earliestOf (some a) (some b) = some (min a b) := by
  show some (if b < a then b else a) = some (min a b)
  congr 1
  rcases lt_or_ge b a with hc | hc
  · rw [if_pos hc, min_eq_right (le_of_lt hc)]
  · rw [if_neg (not_lt.2 hc), min_eq_left hc]

theorem listMin?_append (A B : List ℤ) :
    listMin? (A ++ B) = earliestOf (listMin? A) (listMin? B) := by
  induction A with
  | nil =>
    cases h : listMin? B <;> simp [listMin?, earliestOf, h]
  | cons x xs ih =>
    rw [List.cons_append]
    have hcons : ∀ (l : List ℤ), listMin? (x :: l)
        = match listMin? l with
          | none => some x
          | some m => some (min x m) := fun l => rfl
    rw [hcons (xs ++ B), ih, hcons xs]
    cases h1 : listMin? xs with
    | none =>
      cases h2 : listMin? B with
      | none => rfl
      | some b =>
        rw [earliestOf_some_some]
        rfl
    | some a =>
      cases h2 : listMin? B with
      | none => rfl
      | some b =>
        rw [earliestOf_some_some, earliestOf_some_some, min_assoc]

theorem q3_filter_sum (l : List WRec) (f : WRec → Bool)
    (h3 : ∀ w ∈ l, ∃ k : ℤ, w.amount = (k : ℚ)/1000) :
    ∃ k : ℤ, ((l.filter f).map WRec.amount).sum = (k : ℚ)/1000 :=
  q3_sum _ (fun q hq => by
    obtain ⟨w, hw, rfl⟩ := List.mem_map.1 hq
    exact h3 w (List.mem_filter.1 hw).1)

theorem isVerifiedIn_some (now : ℤ) (w : WRec) (h : isVerifiedIn now w = true) :
    ∃ ts, w.verifiedAt = some ts := by
  unfold isVerifiedIn at h
  rcases hv : w.verifiedAt with _ | ts
  · rw [hv] at h
    simp at h
  · exact ⟨ts, rfl⟩

theorem withdrawSummary_true_eq (s : WState) (now : ℤ) :
    withdrawSummary s now true =
      ⟨round3 (verifiedTotal s.ledger now), round3 (pendingTotal s.ledger now),
       round3 (max 0 (WITHDRAWAL_24H_CAP - verifiedTotal s.ledger now)),
       round3 (max 0 (WITHDRAWAL_24H_CAP -
         (verifiedTotal s.ledger now + pendingTotal s.ledger now))),
       WITHDRAWAL_24H_CAP,
       if WITHDRAWAL_24H_CAP ≤ verifiedTotal s.ledger now + pendingTotal s.ledger now ∨
          WITHDRAWAL_24H_CAP ≤ verifiedTotal s.ledger now then
         (earliestOf (earliestVerifiedAt s.ledger now) (earliestPendingAt s.ledger now)).map
           (· + MS_24H)
       else none⟩ := rfl

/-- C5: the summary equals the specification's formulas: the two rolling
totals are the verified-in-window and pending-in-window sums, the two
remaining fields are `max 0 (cap - ...)`, and `nextAllowedAt` is the
earliest contributing record's timestamp plus 24 hours exactly when the
combined total has reached the cap, and null otherwise.  (Amounts are
stored at 3 decimal places and are nonnegative, as the request handler
guarantees.) -/
theorem c5_summary_matches_spec (s : WState) (now : ℤ)
    (h3 : ∀ w ∈ s.ledger, ∃ k : ℤ, w.amount = (k : ℚ)/1000)
    (hnn : ∀ w ∈ s.ledger, 0 ≤ w.amount) :
    (withdrawSummary s now true).spent24 = specVerifiedTotal24h s.ledger now ∧
    (withdrawSummary s now true).pending24 = specPendingTotal24h s.ledger now ∧
    (withdrawSummary s now true).remainingVerified =
      max 0 (WITHDRAWAL_24H_CAP - specVerifiedTotal24h s.ledger now) ∧
    (withdrawSummary s now true).remainingIncludingPending =
      max 0 (WITHDRAWAL_24H_CAP -
        (specVerifiedTotal24h s.ledger now + specPendingTotal24h s.ledger now)) ∧
    (∀ x, (withdrawSummary s now true).nextAllowedAt = some x ↔
      (WITHDRAWAL_24H_CAP ≤
          specVerifiedTotal24h s.ledger now + specPendingTotal24h s.ledger now ∧
        ∃ tm, tm ∈ specContribTimes s.ledger now ∧
          (∀ u ∈ specContribTimes s.ledger now, tm ≤ u) ∧ x = tm + MS_24H)) ∧
    ((withdrawSummary s now true).nextAllowedAt = none ↔
      specVerifiedTotal24h s.ledger now + specPendingTotal24h s.ledger now <
        WITHDRAWAL_24H_CAP) := by
  have hQv : ∃ k : ℤ, verifiedTotal s.ledger now = (k : ℚ)/1000 :=
    q3_filter_sum s.ledger (isVerifiedIn now) h3
  have hQp : ∃ k : ℤ, pendingTotal s.ledger now = (k : ℚ)/1000 :=
    q3_filter_sum s.ledger (isPendingIn now) h3
  have hv0 : 0 ≤ verifiedTotal s.ledger now := filter_sum_nonneg _ _ hnn
  have hp0 : 0 ≤ pendingTotal s.ledger now := filter_sum_nonneg _ _ hnn
  have hQcap : ∃ k : ℤ, WITHDRAWAL_24H_CAP = (k : ℚ)/1000 :=
    ⟨100000, by norm_num [WITHDRAWAL_24H_CAP]⟩
  have hsv := specVerifiedTotal24h_eq s.ledger now
  have hsp := specPendingTotal24h_eq s.ledger now
  have hcond : (WITHDRAWAL_24H_CAP ≤ verifiedTotal s.ledger now + pendingTotal s.ledger now ∨
      WITHDRAWAL_24H_CAP ≤ verifiedTotal s.ledger now) ↔
      WITHDRAWAL_24H_CAP ≤ verifiedTotal s.ledger now + pendingTotal s.ledger now := by
    constructor
    · rintro (h | h)
      · exact h
      · exact le_trans h (le_add_of_nonneg_right hp0)
    · exact Or.inl
  have hmin : earliestOf (earliestVerifiedAt s.ledger now) (earliestPendingAt s.ledger now)
      = listMin? (specContribTimes s.ledger now) := by
    rw [specContribTimes, listMin?_append]
    rfl
  rw [withdrawSummary_true_eq, hsv, hsp]
  refine ⟨?_, ?_, ?_, ?_, ?_, ?_⟩
  · exact round3_q3 _ hQv
  · exact round3_q3 _ hQp
  · exact round3_q3 _ (q3_max0 _ (q3_sub _ _ hQcap hQv))
  · exact round3_q3 _ (q3_max0 _ (q3_sub _ _ hQcap (by
      obtain ⟨k1, hk1⟩ := hQv
      obtain ⟨k2, hk2⟩ := hQp
      refine ⟨k1 + k2, ?_⟩
      rw [hk1, hk2]
      push_cast
      ring)))
  · intro x
    by_cases hc : WITHDRAWAL_24H_CAP ≤
        verifiedTotal s.ledger now + pendingTotal s.ledger now
    · rw [if_pos (hcond.2 hc), hmin]
      constructor
      · intro hmap
        obtain ⟨a, ha, hfa⟩ := Option.map_eq_some'.1 hmap
        obtain ⟨hmem, hlb⟩ := (listMin?_eq_some_iff _ _).1 ha
        exact ⟨hc, a, hmem, hlb, hfa.symm⟩
      · rintro ⟨-, tm, hmem, hlb, rfl⟩
        exact Option.map_eq_some'.2 ⟨tm, (listMin?_eq_some_iff _ _).2 ⟨hmem, hlb⟩, rfl⟩
    · rw [if_neg (fun h => hc (hcond.1 h))]
      constructor
      · intro h0
        exact absurd h0 (by simp)
      · rintro ⟨hcap, -⟩
        exact absurd hcap hc
  · by_cases hc : WITHDRAWAL_24H_CAP ≤
        verifiedTotal s.ledger now + pendingTotal s.ledger now
    · rw [if_pos (hcond.2 hc), hmin]
      have hne : specContribTimes s.ledger now ≠ [] := by
        intro h0
        obtain ⟨hA, hB⟩ := List.append_eq_nil.1 h0
        have hpz : pendingTotal s.ledger now = 0 := by
          unfold pendingTotal
          rw [List.map_eq_nil.1 hB]
          rfl
        have hvz : verifiedTotal s.ledger now = 0 := by
          unfold verifiedTotal
          cases hfil : s.ledger.filter (isVerifiedIn now) with
          | nil => rfl
          | cons w ws =>
            have hwmem : w ∈ s.ledger.filter (isVerifiedIn now) := by
              rw [hfil]
              exact List.mem_cons_self w ws
            have hwv := (List.mem_filter.1 hwmem).2
            obtain ⟨ts, hts⟩ := isVerifiedIn_some now w hwv
            have := (List.filterMap_eq_nil.1 hA) w hwmem
            rw [hts] at this
            exact absurd this (by simp)
        rw [hpz, hvz] at hc
        norm_num [WITHDRAWAL_24H_CAP] at hc
      constructor
      · intro h0
        rw [Option.map_eq_none'] at h0
        exact absurd ((listMin?_eq_none_iff _).1 h0) hne
      · intro h0
        exact absurd hc (not_le.2 h0)
    · rw [if_neg (fun h => hc (hcond.1 h))]
      exact ⟨fun _ => not_le.1 hc, fun _ => rfl⟩

/-- Witness for C5 at a concrete two-record ledger. -/
theorem c5_summary_matches_spec_witness :
    (withdrawSummary (WState.mk 0 0 false
        [⟨50, "x", WStatus.verified, -7200000, some (-3600000)⟩,
         ⟨60, "x", WStatus.pending, -7200000, none⟩]) 0 true).spent24 =
      specVerifiedTotal24h (WState.mk 0 0 false
        [⟨50, "x", WStatus.verified, -7200000, some (-3600000)⟩,
         ⟨60, "x", WStatus.pending, -7200000, none⟩]).ledger 0 :=
  (c5_summary_matches_spec _ 0
    (by
      intro w hw
      simp only [List.mem_cons, List.not_mem_nil, or_false] at hw
      rcases hw with rfl | rfl
      · exact ⟨50000, by norm_num⟩
      · exact ⟨60000, by norm_num⟩)
    (by
      intro w hw
      simp only [List.mem_cons, List.not_mem_nil, or_false] at hw
      rcases hw with rfl | rfl
      · norm_num
      · norm_num)).1

/-- Errors of the two conversion endpoints in `account.js`. -/
inductive CErr where
  | invalidPoints
  | noPoints
  | invalidAmount
  | insufficientBalance
  | tooSmall
deriving DecidableEq

/-- Response payload of `POST /convert`. -/
structure ConvResp where
  convertedPoints : ℚ
  addedDollar : ℚ
  balanceDollar : ℚ
  pointsCurrent : ℚ
deriving DecidableEq

/-- Response payload of `POST /convert-back`. -/
structure ConvBackResp where
  addedPoints : ℤ
  deductedDollar : ℚ
  balanceDollar : ℚ
  pointsCurrent : ℚ
deriving DecidableEq

/-- The body of `POST /convert` after clamping: `cp` is already
`Math.min(convertPoints, havePoints)` (from `account.js` lines 141-148). -/
def convertCore (s : WState) (cp : ℚ) : WState × Except CErr ConvResp :=
  if cp ≤ 0 then (s, Except.error CErr.noPoints)
  else
    let addDollar := cp * POINT_TO_USD
    let pc := max 0 (s.pointsCurrent - cp)
    let bd := round6 (s.balanceDollar + addDollar)
    ({ s with pointsCurrent := pc, balanceDollar := bd },
     Except.ok ⟨cp, addDollar, bd, pc⟩)

/-- `POST /convert` (`account.js` lines 124-153).  `none` models a request
without a `points` field, which converts the whole point balance; every
rational is finite, so the `Number.isFinite` test always passes. -/
def postConvert (s : WState) (pointsReq : Option ℚ) :
    WState × Except CErr ConvResp :=
  match pointsReq with
  | some p0 =>
      if p0 < 0 then (s, Except.error CErr.invalidPoints)
      else convertCore s (min p0 s.pointsCurrent)
  | none => convertCore s s.pointsCurrent

/-- The body of `POST /convert-back` after clamping: `amount` is already
`Math.min(amountRequested, balance)` (from `account.js` lines 172-189). -/
def convertBackCore (s : WState) (amount : ℚ) :
    WState × Except CErr ConvBackResp :=
  if amount ≤ 0 then (s, Except.error CErr.insufficientBalance)
  else
    let pointsToAdd : ℤ := ⌊amount / POINT_TO_USD⌋
    if pointsToAdd ≤ 0 then (s, Except.error CErr.tooSmall)
    else
      let usedDollars := round6 ((pointsToAdd : ℚ) * POINT_TO_USD)
      let bd := round6 (s.balanceDollar - usedDollars)
      let pc := s.pointsCurrent + (pointsToAdd : ℚ)
      ({ s with balanceDollar := bd, pointsCurrent := pc },
       Except.ok ⟨pointsToAdd, usedDollars, bd, pc⟩)

/-- `POST /convert-back` (`account.js` lines 156-195).  `none` models a
request without an `amount` field, which converts the whole balance. -/
def postConvertBack (s : WState) (amountReq : Option ℚ) :
    WState × Except CErr ConvBackResp :=
  match amountReq with
  | some a0 =>
      if a0 ≤ 0 then (s, Except.error CErr.invalidAmount)
      else convertBackCore s (min a0 s.balanceDollar)
  | none => convertBackCore s s.balanceDollar

/-- C9 counterexample: with a zero balance and 11 points, converting
p = 10.99999 points yields addDollar = 0.03299997, which `toFixed(6)`
rounds UP to a balance of 0.033; converting that gain (0.033 - 0) back
yields floor(0.033 / 0.003) = 11 points, and 11 > 10.99999.  The round
trip can therefore return strictly more than p points, refuting the
claim as stated for non-integer p. -/
theorem c9_counterexample :
    0 < (1099999/100000 : ℚ) ∧
    (1099999/100000 : ℚ) ≤ (WState.mk 0 11 false []).pointsCurrent ∧
    postConvert (WState.mk 0 11 false []) (some (1099999/100000)) =
      (WState.mk (33/1000) (1/100000) false [],
       Except.ok ⟨1099999/100000, 3299997/100000000, 33/1000, 1/100000⟩) ∧
    postConvertBack (WState.mk (33/1000) (1/100000) false [])
        (some ((33:ℚ)/1000 - 0)) =
      (WState.mk 0 (1100001/100000) false [],
       Except.ok ⟨11, 33/1000, 0, 1100001/100000⟩) ∧
    (1099999/100000 : ℚ) < ((11 : ℤ) : ℚ) := by
  refine ⟨by norm_num, by norm_num, ?_, ?_, by norm_num⟩
  · have hfl : (⌊(3300047/100 : ℚ)⌋ : ℤ) = 33000 := by
      rw [Int.floor_eq_iff]
      norm_num
    norm_num [postConvert, convertCore, round6, POINT_TO_USD, min_def, hfl,
      max_def, WState.mk.injEq, ConvResp.mk.injEq]
  · have hfl : (⌊(11:ℚ)⌋ : ℤ) = 11 := by
      rw [Int.floor_eq_iff]
      norm_num
    have hfl2 : (⌊(33000:ℚ)/1000 + 1/2⌋ : ℤ) = 33 := by
      rw [Int.floor_eq_iff]
      norm_num
    norm_num [postConvertBack, convertBackCore, round6, POINT_TO_USD, min_def,
      hfl, hfl2, WState.mk.injEq, ConvBackResp.mk.injEq]

/-- C9 (amended): for a whole number of points p with 0 < p and p at most
the point balance, on a 6-decimal nonnegative balance, converting p points
and then converting the entire resulting currency gain back yields at most
p points (in fact exactly p), and every intermediate point and currency
balance stays nonnegative. -/
theorem c9_integer_round_trip (s : WState) (p : ℤ)
    (hp : 0 < p) (hple : (p : ℚ) ≤ s.pointsCurrent)
    (hb0 : 0 ≤ s.balanceDollar)
    (hb6 : ∃ k : ℤ, s.balanceDollar = (k : ℚ)/1000000) :
    ∃ s1 r1 s2 r2,
      postConvert s (some ((p : ℚ))) = (s1, Except.ok r1) ∧
      postConvertBack s1 (some (s1.balanceDollar - s.balanceDollar)) =
        (s2, Except.ok r2) ∧
      r2.addedPoints ≤ p ∧
      0 ≤ s1.balanceDollar ∧ 0 ≤ s1.pointsCurrent ∧
      0 ≤ s2.balanceDollar ∧ 0 ≤ s2.pointsCurrent := by
  obtain ⟨k, hk⟩ := hb6
  have hp0 : (0:ℚ) < (p:ℚ) := by exact_mod_cast hp
  have hminp : min ((p:ℚ)) s.pointsCurrent = (p:ℚ) := min_eq_left hple
  have hbd1 : round6 (s.balanceDollar + (p:ℚ) * POINT_TO_USD) =
      s.balanceDollar + (p:ℚ) * POINT_TO_USD := by
    have harith : s.balanceDollar + (p:ℚ) * POINT_TO_USD =
        ((k + 3000*p : ℤ) : ℚ)/1000000 := by
      rw [hk, POINT_TO_USD]
      push_cast
      ring
    rw [harith, round6_int_div]
  have hconv : postConvert s (some ((p:ℚ))) =
      (WState.mk (s.balanceDollar + (p:ℚ) * POINT_TO_USD)
         (max 0 (s.pointsCurrent - (p:ℚ))) s.isAdmin s.ledger,
       Except.ok ⟨(p:ℚ), (p:ℚ) * POINT_TO_USD,
         s.balanceDollar + (p:ℚ) * POINT_TO_USD,
         max 0 (s.pointsCurrent - (p:ℚ))⟩) := by
    simp only [postConvert, convertCore]
    rw [if_neg (not_lt.2 (le_of_lt hp0)), hminp, if_neg (not_le.2 hp0), hbd1]
  have hgpos : (0:ℚ) < (p:ℚ) * POINT_TO_USD := by
    rw [POINT_TO_USD]
    exact mul_pos hp0 (by norm_num)
  have hdiv : ((p:ℚ) * POINT_TO_USD) / POINT_TO_USD = (p:ℚ) := by
    rw [POINT_TO_USD]
    field_simp
  have huse : round6 ((p:ℚ) * POINT_TO_USD) = (p:ℚ) * POINT_TO_USD := by
    have h1 : (p:ℚ) * POINT_TO_USD = ((3000*p : ℤ) : ℚ)/1000000 := by
      rw [POINT_TO_USD]
      push_cast
      ring
    rw [h1, round6_int_div]
  have hbd2 : round6 (s.balanceDollar + (p:ℚ) * POINT_TO_USD -
      (p:ℚ) * POINT_TO_USD) = s.balanceDollar := by
    have h1 : s.balanceDollar + (p:ℚ) * POINT_TO_USD - (p:ℚ) * POINT_TO_USD =
        (k:ℚ)/1000000 := by
      rw [hk]
      ring
    rw [h1, round6_int_div, ← hk]
  have hconvback : postConvertBack
      (WState.mk (s.balanceDollar + (p:ℚ) * POINT_TO_USD)
        (max 0 (s.pointsCurrent - (p:ℚ))) s.isAdmin s.ledger)
      (some ((p:ℚ) * POINT_TO_USD)) =
      (WState.mk s.balanceDollar
        (max 0 (s.pointsCurrent - (p:ℚ)) + (p:ℚ)) s.isAdmin s.ledger,
       Except.ok ⟨p, (p:ℚ) * POINT_TO_USD, s.balanceDollar,
         max 0 (s.pointsCurrent - (p:ℚ)) + (p:ℚ)⟩) := by
    simp only [postConvertBack, convertBackCore]
    rw [if_neg (not_le.2 hgpos)]
    rw [min_eq_left (le_add_of_nonneg_left hb0)]
    rw [if_neg (not_le.2 hgpos)]
    rw [hdiv, Int.floor_intCast]
    rw [if_neg (not_le.2 hp)]
    rw [huse, hbd2]
  refine ⟨WState.mk (s.balanceDollar + (p:ℚ) * POINT_TO_USD)
      (max 0 (s.pointsCurrent - (p:ℚ))) s.isAdmin s.ledger,
    ⟨(p:ℚ), (p:ℚ) * POINT_TO_USD, s.balanceDollar + (p:ℚ) * POINT_TO_USD,
      max 0 (s.pointsCurrent - (p:ℚ))⟩,
    WState.mk s.balanceDollar
      (max 0 (s.pointsCurrent - (p:ℚ)) + (p:ℚ)) s.isAdmin s.ledger,
    ⟨p, (p:ℚ) * POINT_TO_USD, s.balanceDollar,
      max 0 (s.pointsCurrent - (p:ℚ)) + (p:ℚ)⟩,
    hconv, ?_, le_refl p, ?_, le_max_left 0 _, hb0,
    add_nonneg (le_max_left 0 _) (le_of_lt hp0)⟩
  · have harg : (WState.mk (s.balanceDollar + (p:ℚ) * POINT_TO_USD)
        (max 0 (s.pointsCurrent - (p:ℚ))) s.isAdmin s.ledger).balanceDollar -
        s.balanceDollar = (p:ℚ) * POINT_TO_USD := by
      dsimp only
      ring
    rw [harg]
    exact hconvback
  · exact add_nonneg hb0 (le_of_lt hgpos)

/-- Witness for the amended C9 at a fresh user with 1000 points. -/
theorem c9_integer_round_trip_witness :
    ∃ s1 r1 s2 r2,
      postConvert (WState.mk 0 1000 false []) (some (((1000 : ℤ) : ℚ))) =
        (s1, Except.ok r1) ∧
      postConvertBack s1
          (some (s1.balanceDollar - (WState.mk 0 1000 false []).balanceDollar)) =
        (s2, Except.ok r2) ∧
      r2.addedPoints ≤ 1000 ∧
      0 ≤ s1.balanceDollar ∧ 0 ≤ s1.pointsCurrent ∧
      0 ≤ s2.balanceDollar ∧ 0 ≤ s2.pointsCurrent :=
  c9_integer_round_trip (WState.mk 0 1000 false []) 1000
    (by norm_num) (by norm_num) (by norm_num) ⟨0, by norm_num⟩

end LPCore
